import Mathlib

/-!
Verification of the core shape arithmetic and dispatch logic of the MLAS
NCHWc single-precision engine (`onnxruntime/core/mlas/lib/snchwc.cpp`).

The development shallowly embeds:
  * the per-dimension shape preprocessor `MlasPrepareNchwcWorkBlock`,
  * the effective-kernel helper `ComputeEffectiveKernel` (and the identical
    inline loop of the pooling executor),
  * the static work partitioner `PartitionWork`,
  * the `KernelFlags` construction of the three grouped convolution
    executors,
  * the algorithm selector of `MlasNchwcConv`,
  * the pointer state machine `CompleteWork` of the grouped executors, and
  * the per-row argument assembly of the pooling executor.

`size_t` values are modelled as `Nat`.  Operations whose two's-complement
wrap-around is semantically relevant (the preprocessor's subtractions and
everything inside the effective-kernel walk, whose handling of "negative"
row indices relies on unsigned wrap-around) are performed modulo `2 ^ 64`
via `add64` / `sub64` / `mul64`.  Pointers are modelled as exact `Nat`
offsets (C++ pointer arithmetic has no defined wrap-around), and loop
counters that the surrounding control flow keeps far below `2 ^ 64` use
plain `Nat` arithmetic.
-/

/-- The `size_t` modulus, `2 ^ 64`. -/
def W64 : Nat := 2 ^ 64

/-- `size_t` addition (wrap-around modulo `2 ^ 64`). -/
def add64 (a b : Nat) : Nat := (a + b) % W64

/-- `size_t` multiplication (wrap-around modulo `2 ^ 64`). -/
def mul64 (a b : Nat) : Nat := (a * b) % W64

/-- `size_t` subtraction (two's-complement wrap-around modulo `2 ^ 64`). -/
def sub64 (a b : Nat) : Nat := (a + (W64 - b % W64)) % W64

theorem W64_pos : 0 < W64 := by decide

theorem add64_eq_of_lt {a b : Nat} (h : a + b < W64) : add64 a b = a + b := by
  simpa [add64] using Nat.mod_eq_of_lt h

theorem mul64_eq_of_lt {a b : Nat} (h : a * b < W64) : mul64 a b = a * b := by
  simpa [mul64] using Nat.mod_eq_of_lt h

theorem sub64_eq_of_le {a b : Nat} (hba : b ≤ a) (ha : a < W64) : sub64 a b = a - b := by
  have hb : b < W64 := lt_of_le_of_lt hba ha
  have h1 : b % W64 = b := Nat.mod_eq_of_lt hb
  have h2 : a + (W64 - b) = W64 + (a - b) := by omega
  have h3 : a - b < W64 := lt_of_le_of_lt (Nat.sub_le a b) ha
  simp [sub64, h1, h2, Nat.add_mod_left, Nat.mod_eq_of_lt h3]

theorem add64_lt (a b : Nat) : add64 a b < W64 := Nat.mod_lt _ W64_pos

theorem sub64_lt (a b : Nat) : sub64 a b < W64 := Nat.mod_lt _ W64_pos

theorem mul64_lt (a b : Nat) : mul64 a b < W64 := Nat.mod_lt _ W64_pos

/-- Number of indices `k < n` satisfying the boolean predicate `p`. -/
def natCount (p : Nat → Bool) : Nat → Nat
  | 0 => 0
  | n + 1 => natCount p n + (if p n then 1 else 0)

theorem natCount_le (p : Nat → Bool) : ∀ n, natCount p n ≤ n := by
  intro n
  induction n with
  | zero => simp [natCount]
  | succ n ih =>
    simp only [natCount]
    split <;> omega

theorem natCount_congr {p q : Nat → Bool} : ∀ {n}, (∀ k, k < n → p k = q k) →
    natCount p n = natCount q n := by
  intro n
  induction n with
  | zero => intro _; rfl
  | succ n ih =>
    intro h
    simp only [natCount, ih fun k hk => h k (Nat.lt_succ_of_lt hk), h n (Nat.lt_succ_self n)]

theorem natCount_eq_zero {p : Nat → Bool} : ∀ {n}, (∀ k, k < n → p k = false) →
    natCount p n = 0 := by
  intro n
  induction n with
  | zero => intro _; rfl
  | succ n ih =>
    intro h
    simp [natCount, ih fun k hk => h k (Nat.lt_succ_of_lt hk), h n (Nat.lt_succ_self n)]

theorem natCount_eq_self {p : Nat → Bool} : ∀ {n}, (∀ k, k < n → p k = true) →
    natCount p n = n := by
  intro n
  induction n with
  | zero => intro _; rfl
  | succ n ih =>
    intro h
    simp [natCount, ih fun k hk => h k (Nat.lt_succ_of_lt hk), h n (Nat.lt_succ_self n)]

/-- Peel the bottom index off a `natCount`. -/
theorem natCount_succ_shift (p : Nat → Bool) : ∀ n,
    natCount p (n + 1) = (if p 0 then 1 else 0) + natCount (fun k => p (k + 1)) n := by
  intro n
  induction n with
  | zero => simp [natCount]
  | succ n ih =>
    have : natCount p (n + 1 + 1) = natCount p (n + 1) + (if p (n + 1) then 1 else 0) := rfl
    rw [this, ih]
    simp only [natCount]
    omega

theorem natCount_lt_const (c : Nat) : ∀ n, natCount (fun k => decide (k < c)) n = min n c := by
  intro n
  induction n with
  | zero => simp [natCount]
  | succ n ih =>
    simp only [natCount, ih]
    by_cases h : n < c
    · simp [h]; omega
    · simp [h]; omega

theorem natCount_le_mono {p q : Nat → Bool} : ∀ {n}, (∀ k, k < n → p k = true → q k = true) →
    natCount p n ≤ natCount q n := by
  intro n
  induction n with
  | zero => intro _; exact Nat.le_refl 0
  | succ n ih =>
    intro h
    have h1 := ih fun k hk => h k (Nat.lt_succ_of_lt hk)
    simp only [natCount]
    by_cases hp : p n
    · have := h n (Nat.lt_succ_self n) hp
      simp [hp, this]; omega
    · simp [hp]
      split <;> omega

theorem natCount_add_compl (p : Nat → Bool) : ∀ n,
    natCount p n + natCount (fun k => ! p k) n = n := by
  intro n
  induction n with
  | zero => rfl
  | succ n ih =>
    simp only [natCount]
    by_cases hp : p n <;> simp [hp] <;> omega

/-! ### Bridging `size_t` values and mathematical integers -/

/-- The `size_t` value representing the mathematical integer `t`. -/
def enc (t : Int) : Nat := (t % (W64 : Int)).toNat

theorem enc_lt (t : Int) : enc t < W64 := by
  simp only [enc, W64]
  omega

theorem enc_of_nonneg {t : Int} (h0 : 0 ≤ t) (h1 : t < (W64 : Int)) : enc t = t.toNat := by
  simp only [enc, W64] at *
  omega

theorem enc_of_neg {t : Int} (h0 : -(W64 : Int) < t) (h1 : t < 0) :
    enc t = (t + W64).toNat := by
  simp only [enc, W64] at *
  omega

theorem enc_add_nat (t : Int) (m : Nat) : (enc t + m) % W64 = enc (t + m) := by
  simp only [enc, W64]
  omega

/-- `size_t` subtraction of two in-range values encodes their integer difference. -/
theorem sub64_enc (a b : Nat) :
    sub64 a b = enc ((a : Int) - b) := by
  simp only [sub64, enc, W64] at *
  omega

/-! ### The shape preprocessor `MlasPrepareNchwcWorkBlock`

`prepareNchwcWorkBlockDim` is the body of the per-dimension loop of
`MlasPrepareNchwcWorkBlock` (snchwc.cpp, lines 164-201) specialised to one
spatial dimension: it receives the already-extracted `InputValue`,
`OutputValue`, `KernelShape`, `DilationShape`, left `Padding` and
`StrideShape` values and returns the stored triple
`(OutputCountLeftPad, OutputCount, OutputCountRightPad)`.
-/

def prepareNchwcWorkBlockDim (InputValue OutputValue KernelValue DilationValue
    PaddingLeftValue StrideValue : Nat) : Nat × Nat × Nat :=
  let SpanValue := add64 (mul64 DilationValue (sub64 KernelValue 1)) 1
  let OutputCount :=
    if SpanValue ≤ InputValue then
      add64 (sub64 InputValue SpanValue / StrideValue) 1
    else 0
  let OutputCountWithLeftPad :=
    if SpanValue ≤ add64 InputValue PaddingLeftValue then
      add64 (sub64 (add64 InputValue PaddingLeftValue) SpanValue / StrideValue) 1
    else OutputValue
  let OutputCountLeftPad := sub64 OutputCountWithLeftPad OutputCount
  let OutputCountRightPad := sub64 OutputValue OutputCountWithLeftPad
  if OutputCountLeftPad = 0 ∧ 0 < PaddingLeftValue then
    (1, sub64 OutputCount 1, OutputCountRightPad)
  else
    (OutputCountLeftPad, OutputCount, OutputCountRightPad)

/-- The dilated kernel span `DH * (KH - 1) + 1` (overflow-free form). -/
def spanN (KH DH : Nat) : Nat := DH * (KH - 1) + 1

/-- Overflow-free form of the interior output count (`OutputCount` before the
fix-up). -/
def midCountN (IH KH DH SH : Nat) : Nat :=
  if spanN KH DH ≤ IH then (IH - spanN KH DH) / SH + 1 else 0

/-- Overflow-free form of `OutputCountWithLeftPad`. -/
def withPadCountN (IH OH KH DH PL SH : Nat) : Nat :=
  if spanN KH DH ≤ IH + PL then (IH + PL - spanN KH DH) / SH + 1 else OH

theorem midCountN_le_withPadCountN (IH OH KH DH PL SH : Nat) :
    midCountN IH KH DH SH ≤ withPadCountN IH OH KH DH PL SH := by
  unfold midCountN withPadCountN
  split
  · rename_i h1
    rw [if_pos (le_trans h1 (Nat.le_add_right IH PL))]
    have := @Nat.div_le_div_right _ _ SH (Nat.sub_le_sub_right (Nat.le_add_right IH PL) (spanN KH DH))
    omega
  · exact Nat.zero_le _

/-- If the `Lpad` fix-up branch of the preprocessor fires (and the requested
output length is nonzero) then the interior count is positive. -/
theorem fixup_mid_pos {IH OH KH DH PL SH : Nat} (hOH1 : 1 ≤ OH)
    (hfix : withPadCountN IH OH KH DH PL SH - midCountN IH KH DH SH = 0) :
    1 ≤ midCountN IH KH DH SH := by
  unfold midCountN withPadCountN at *
  by_cases h1 : spanN KH DH ≤ IH
  · rw [if_pos h1] at *
    exact Nat.le_add_left 1 _
  · rw [if_neg h1] at *
    by_cases h2 : spanN KH DH ≤ IH + PL
    · rw [if_pos h2] at hfix
      generalize (IH + PL - spanN KH DH) / SH = x at hfix
      omega
    · rw [if_neg h2] at hfix; omega

theorem withPadCountN_lt {IH OH KH DH PL SH : Nat} (hIH : IH < 2 ^ 28)
    (hOH : OH < 2 ^ 30) (hPL : PL < 2 ^ 28) :
    withPadCountN IH OH KH DH PL SH < 2 ^ 30 := by
  unfold withPadCountN
  split
  · have h1 : (IH + PL - spanN KH DH) / SH ≤ IH + PL - spanN KH DH := Nat.div_le_self _ _
    generalize (IH + PL - spanN KH DH) / SH = x at h1
    omega
  · exact hOH

theorem midCountN_lt {IH KH DH SH : Nat} (hIH : IH < 2 ^ 28) :
    midCountN IH KH DH SH < 2 ^ 29 := by
  unfold midCountN
  split
  · have h1 : (IH - spanN KH DH) / SH ≤ IH - spanN KH DH := Nat.div_le_self _ _
    generalize (IH - spanN KH DH) / SH = x at h1
    omega
  · omega

/-- Closed characterization of the preprocessor's stored triple: under
realistic (overflow-free) parameter magnitudes, `prepareNchwcWorkBlockDim`
stores `(Withpad - Mid, Mid, OH - Withpad)`, except that when
`Withpad - Mid = 0` and there is left padding it stores
`(1, Mid - 1, OH - Withpad)`. -/
theorem prepareNchwcWorkBlockDim_char
    (IH OH KH DH PL SH : Nat)
    (hIH : IH < 2 ^ 28) (hOH : OH < 2 ^ 30) (hKH : KH < 2 ^ 28) (hDH : DH < 2 ^ 28)
    (hPL : PL < 2 ^ 28) (hKH1 : 1 ≤ KH) (hOH1 : 1 ≤ OH) :
    prepareNchwcWorkBlockDim IH OH KH DH PL SH =
      if withPadCountN IH OH KH DH PL SH - midCountN IH KH DH SH = 0 ∧ 0 < PL then
        (1, midCountN IH KH DH SH - 1, sub64 OH (withPadCountN IH OH KH DH PL SH))
      else
        (withPadCountN IH OH KH DH PL SH - midCountN IH KH DH SH, midCountN IH KH DH SH,
         sub64 OH (withPadCountN IH OH KH DH PL SH)) := by
  have hKHW : KH < W64 := by unfold W64; omega
  have h1 : sub64 KH 1 = KH - 1 := sub64_eq_of_le hKH1 hKHW
  have hprod : DH * (KH - 1) < 2 ^ 56 := by
    calc DH * (KH - 1) < 2 ^ 28 * 2 ^ 28 := Nat.mul_lt_mul'' hDH (by omega)
    _ = 2 ^ 56 := by norm_num
  have h2 : mul64 DH (KH - 1) = DH * (KH - 1) := mul64_eq_of_lt (by unfold W64; omega)
  have h3 : add64 (DH * (KH - 1)) 1 = spanN KH DH := by
    rw [add64_eq_of_lt (by unfold W64; omega)]; rfl
  have hspan_lt : spanN KH DH < 2 ^ 57 := by unfold spanN; omega
  have hIHW : IH < W64 := by unfold W64; omega
  have hIPW : IH + PL < W64 := by unfold W64; omega
  have h4 : add64 IH PL = IH + PL := add64_eq_of_lt hIPW
  have hmc : (if spanN KH DH ≤ IH then add64 (sub64 IH (spanN KH DH) / SH) 1 else 0) =
      midCountN IH KH DH SH := by
    unfold midCountN
    by_cases hcase : spanN KH DH ≤ IH
    · rw [if_pos hcase, if_pos hcase, sub64_eq_of_le hcase hIHW]
      have hd : (IH - spanN KH DH) / SH ≤ IH - spanN KH DH := Nat.div_le_self _ _
      rw [add64_eq_of_lt (by generalize (IH - spanN KH DH) / SH = x at hd ⊢; unfold W64; omega)]
    · rw [if_neg hcase, if_neg hcase]
  have hwc : (if spanN KH DH ≤ IH + PL then add64 (sub64 (IH + PL) (spanN KH DH) / SH) 1
        else OH) = withPadCountN IH OH KH DH PL SH := by
    unfold withPadCountN
    by_cases hcase : spanN KH DH ≤ IH + PL
    · rw [if_pos hcase, if_pos hcase, sub64_eq_of_le hcase hIPW]
      have hd : (IH + PL - spanN KH DH) / SH ≤ IH + PL - spanN KH DH := Nat.div_le_self _ _
      rw [add64_eq_of_lt
        (by generalize (IH + PL - spanN KH DH) / SH = x at hd ⊢; unfold W64; omega)]
    · rw [if_neg hcase, if_neg hcase]
  have hwcW : withPadCountN IH OH KH DH PL SH < W64 := by
    have := @withPadCountN_lt IH OH KH DH PL SH hIH hOH hPL
    unfold W64; omega
  have hmcW : midCountN IH KH DH SH < W64 := by
    have := @midCountN_lt IH KH DH SH hIH
    unfold W64; omega
  have hlp : sub64 (withPadCountN IH OH KH DH PL SH) (midCountN IH KH DH SH) =
      withPadCountN IH OH KH DH PL SH - midCountN IH KH DH SH :=
    sub64_eq_of_le (midCountN_le_withPadCountN IH OH KH DH PL SH) hwcW
  simp only [prepareNchwcWorkBlockDim, h1, h2, h3, h4, hmc, hwc, hlp]
  by_cases hfix : withPadCountN IH OH KH DH PL SH - midCountN IH KH DH SH = 0 ∧ 0 < PL
  · rw [if_pos hfix, if_pos hfix]
    have hmid1 : 1 ≤ midCountN IH KH DH SH := fixup_mid_pos hOH1 hfix.1
    rw [sub64_eq_of_le hmid1 hmcW]
  · rw [if_neg hfix, if_neg hfix]

/-- Under a consistent requested output length
`OH = (IH + PL + PR - Span) / SH + 1`, the with-left-pad count never
exceeds `OH`. -/
theorem withPadCountN_le_of_consistent {IH OH KH DH PL PR SH : Nat}
    (_hspan : spanN KH DH ≤ IH + PL + PR)
    (hOH : OH = (IH + PL + PR - spanN KH DH) / SH + 1) :
    withPadCountN IH OH KH DH PL SH ≤ OH := by
  unfold withPadCountN
  split
  · have h := @Nat.div_le_div_right _ _ SH
      (Nat.sub_le_sub_right (Nat.le_add_right (IH + PL) PR) (spanN KH DH))
    omega
  · exact Nat.le_refl OH

/-- Claim C2: for every spatial dimension with `IH ≥ 1`, `KH ≥ 1`, `DH ≥ 1`,
`SH ≥ 1`, arbitrary pads and the matching output length
`OH = ⌊(IH + PL + PR - Span) / SH⌋ + 1`, the stored triple satisfies
`OutputCountLeftPad + OutputCount + OutputCountRightPad = OH`, including
when the `Lpad` fix-up branch runs. -/
theorem c2_partition_sum (IH OH KH DH PL PR SH : Nat)
    (hIH1 : 1 ≤ IH) (hIHb : IH < 2 ^ 28) (hKH1 : 1 ≤ KH) (hKHb : KH < 2 ^ 28)
    (hDH1 : 1 ≤ DH) (hDHb : DH < 2 ^ 28) (hSH1 : 1 ≤ SH) (hSHb : SH < 2 ^ 28)
    (hPLb : PL < 2 ^ 28) (hPRb : PR < 2 ^ 28)
    (hspan : spanN KH DH ≤ IH + PL + PR)
    (hOH : OH = (IH + PL + PR - spanN KH DH) / SH + 1) :
    (prepareNchwcWorkBlockDim IH OH KH DH PL SH).1 +
      (prepareNchwcWorkBlockDim IH OH KH DH PL SH).2.1 +
      (prepareNchwcWorkBlockDim IH OH KH DH PL SH).2.2 = OH := by
  have hOHb : OH < 2 ^ 30 := by
    have hd : (IH + PL + PR - spanN KH DH) / SH ≤ IH + PL + PR - spanN KH DH :=
      Nat.div_le_self _ _
    generalize (IH + PL + PR - spanN KH DH) / SH = x at hOH hd
    omega
  have hOH1 : 1 ≤ OH := by rw [hOH]; exact Nat.le_add_left 1 _
  have hwp := @withPadCountN_le_of_consistent IH OH KH DH PL PR SH hspan hOH
  have hmidwp := midCountN_le_withPadCountN IH OH KH DH PL SH
  have hOHW : OH < W64 := by unfold W64; omega
  have hrp : sub64 OH (withPadCountN IH OH KH DH PL SH) =
      OH - withPadCountN IH OH KH DH PL SH := sub64_eq_of_le hwp hOHW
  rw [prepareNchwcWorkBlockDim_char IH OH KH DH PL SH hIHb hOHb hKHb hDHb hPLb hKH1 hOH1]
  by_cases hfix : withPadCountN IH OH KH DH PL SH - midCountN IH KH DH SH = 0 ∧ 0 < PL
  · rw [if_pos hfix]
    have hmid1 : 1 ≤ midCountN IH KH DH SH := fixup_mid_pos hOH1 hfix.1
    dsimp only
    rw [hrp]
    omega
  · rw [if_neg hfix]
    dsimp only
    rw [hrp]
    omega

theorem c2_witness :
    spanN 3 1 ≤ 4 + 1 + 1 ∧
    (prepareNchwcWorkBlockDim 4 4 3 1 1 1).1 + (prepareNchwcWorkBlockDim 4 4 3 1 1 1).2.1 +
      (prepareNchwcWorkBlockDim 4 4 3 1 1 1).2.2 = 4 :=
  ⟨by decide,
   c2_partition_sum 4 4 3 1 1 1 1 (by decide) (by decide) (by decide) (by decide) (by decide)
     (by decide) (by decide) (by decide) (by decide) (by decide) (by decide) (by decide)⟩

/-- The with-left-pad output count as the specification words it:
`max(0, ⌊(IH + PL - Span) / SH⌋ + 1)` (floor division over the integers)
clamped to `OH`.  This definition follows the specification text and is
compared against the value the code stores. -/
def specWithPadClamped (IH OH KH DH PL SH : Nat) : Nat :=
  min OH (Int.toNat (Int.fdiv ((IH : Int) + PL - ((DH : Int) * ((KH : Int) - 1) + 1)) SH + 1))

/-- Claim C3 is false as stated: at `IH = 1`, `PL = 0`, `PR = 2`, `KH = 2`,
`DH = 2`, `SH = 1` (so `Span = 3 > IH + PL` and the consistent output
length is `OH = 1`), the spec formula gives `0` but the code stores a
with-left-pad count (`Lpad + Mid`) of `OH = 1`. -/
theorem c3_counterexample :
    spanN 2 2 ≤ 1 + 0 + 2 ∧ 1 = (1 + 0 + 2 - spanN 2 2) / 1 + 1 ∧
    (prepareNchwcWorkBlockDim 1 1 2 2 0 1).1 + (prepareNchwcWorkBlockDim 1 1 2 2 0 1).2.1 ≠
      specWithPadClamped 1 1 2 2 0 1 := by decide

/-- Claim C3, amended: the stored with-left-pad count (`Lpad + Mid`) equals
`⌊(IH + PL - Span) / SH⌋ + 1` when `IH + PL ≥ Span` and equals `OH` (not
`0`) when `IH + PL < Span`; no clamping is applied, but under a consistent
output length the value never exceeds `OH` anyway. -/
theorem c3_withpad_count (IH OH KH DH PL PR SH : Nat)
    (hIH1 : 1 ≤ IH) (hIHb : IH < 2 ^ 28) (hKH1 : 1 ≤ KH) (hKHb : KH < 2 ^ 28)
    (hDH1 : 1 ≤ DH) (hDHb : DH < 2 ^ 28) (hSH1 : 1 ≤ SH) (hSHb : SH < 2 ^ 28)
    (hPLb : PL < 2 ^ 28) (hPRb : PR < 2 ^ 28)
    (hspan : spanN KH DH ≤ IH + PL + PR)
    (hOH : OH = (IH + PL + PR - spanN KH DH) / SH + 1) :
    ((prepareNchwcWorkBlockDim IH OH KH DH PL SH).1 +
       (prepareNchwcWorkBlockDim IH OH KH DH PL SH).2.1 =
      if spanN KH DH ≤ IH + PL then (IH + PL - spanN KH DH) / SH + 1 else OH) ∧
    (if spanN KH DH ≤ IH + PL then (IH + PL - spanN KH DH) / SH + 1 else OH) ≤ OH := by
  have hOHb : OH < 2 ^ 30 := by
    have hd : (IH + PL + PR - spanN KH DH) / SH ≤ IH + PL + PR - spanN KH DH :=
      Nat.div_le_self _ _
    generalize (IH + PL + PR - spanN KH DH) / SH = x at hOH hd
    omega
  have hOH1 : 1 ≤ OH := by rw [hOH]; exact Nat.le_add_left 1 _
  have hwp := @withPadCountN_le_of_consistent IH OH KH DH PL PR SH hspan hOH
  have hmidwp := midCountN_le_withPadCountN IH OH KH DH PL SH
  have hval : (if spanN KH DH ≤ IH + PL then (IH + PL - spanN KH DH) / SH + 1 else OH) =
      withPadCountN IH OH KH DH PL SH := rfl
  rw [hval]
  refine ⟨?_, hwp⟩
  rw [prepareNchwcWorkBlockDim_char IH OH KH DH PL SH hIHb hOHb hKHb hDHb hPLb hKH1 hOH1]
  by_cases hfix : withPadCountN IH OH KH DH PL SH - midCountN IH KH DH SH = 0 ∧ 0 < PL
  · rw [if_pos hfix]
    have hmid1 : 1 ≤ midCountN IH KH DH SH := fixup_mid_pos hOH1 hfix.1
    dsimp only
    omega
  · rw [if_neg hfix]
    dsimp only
    omega

theorem c3_witness :
    spanN 3 1 ≤ 5 + 1 + 0 ∧
    ((prepareNchwcWorkBlockDim 5 2 3 1 1 2).1 + (prepareNchwcWorkBlockDim 5 2 3 1 1 2).2.1 =
      if spanN 3 1 ≤ 5 + 1 then (5 + 1 - spanN 3 1) / 2 + 1 else 2) ∧
    (if spanN 3 1 ≤ 5 + 1 then (5 + 1 - spanN 3 1) / 2 + 1 else 2) ≤ 2 :=
  ⟨by decide,
   c3_withpad_count 5 2 3 1 1 0 2 (by decide) (by decide) (by decide) (by decide) (by decide)
     (by decide) (by decide) (by decide) (by decide) (by decide) (by decide) (by decide)⟩

/-- Claim C9: whenever the `Lpad` fix-up branch is taken
(`OutputCountLeftPad = 0` before the fix-up, and `PL > 0`) on a dimension
with `OH ≥ 1`, the `OutputCount` value being decremented is at least `1`,
so the stored interior count is exactly `OutputCount - 1 ≥ 0` with no
wrap-around. -/
theorem c9_fixup_no_wrap (IH OH KH DH PL SH : Nat)
    (hIHb : IH < 2 ^ 28) (hOHb : OH < 2 ^ 30) (hKH1 : 1 ≤ KH) (hKHb : KH < 2 ^ 28)
    (hDHb : DH < 2 ^ 28) (hPLb : PL < 2 ^ 28) (hOH1 : 1 ≤ OH)
    (htaken : withPadCountN IH OH KH DH PL SH - midCountN IH KH DH SH = 0 ∧ 0 < PL) :
    1 ≤ midCountN IH KH DH SH ∧
    (prepareNchwcWorkBlockDim IH OH KH DH PL SH).2.1 + 1 = midCountN IH KH DH SH := by
  have hmid1 : 1 ≤ midCountN IH KH DH SH := fixup_mid_pos hOH1 htaken.1
  refine ⟨hmid1, ?_⟩
  rw [prepareNchwcWorkBlockDim_char IH OH KH DH PL SH hIHb hOHb hKHb hDHb hPLb hKH1 hOH1]
  rw [if_pos htaken]
  dsimp only
  omega

theorem c9_witness :
    (withPadCountN 3 2 1 1 1 2 - midCountN 3 1 1 2 = 0 ∧ 0 < 1) ∧
    1 ≤ midCountN 3 1 1 2 ∧
    (prepareNchwcWorkBlockDim 3 2 1 1 1 2).2.1 + 1 = midCountN 3 1 1 2 :=
  ⟨by decide,
   c9_fixup_no_wrap 3 2 1 1 1 2 (by decide) (by decide) (by decide) (by decide) (by decide)
     (by decide) (by decide) (by decide)⟩

/-! ### The static work partitioner `MLAS_NCHWC_NN_ALGORITHM::PartitionWork`

snchwc.cpp, lines 273-293.  `tids` is the thread count stored in the work
block, `Index` the worker index in `[0, tids)`.  Returns
`(WorkIndex, WorkRemaining)`.
-/

def partitionWork (tids TotalWork Index : Nat) : Nat × Nat :=
  let WorkPerThread := TotalWork / tids
  let WorkPerThreadExtra := TotalWork % tids
  if Index < WorkPerThreadExtra then
    ((WorkPerThread + 1) * Index, WorkPerThread + 1)
  else
    (WorkPerThread * Index + WorkPerThreadExtra, WorkPerThread)

theorem partitionWork_start (T W i : Nat) :
    (partitionWork T W i).1 = (W / T) * i + min i (W % T) := by
  unfold partitionWork
  by_cases h : i < W % T
  · rw [if_pos h]
    have : min i (W % T) = i := by omega
    dsimp only
    rw [this]
    ring
  · rw [if_neg h]
    have : min i (W % T) = W % T := by omega
    dsimp only
    rw [this]

theorem partitionWork_count (T W i : Nat) :
    (partitionWork T W i).2 = if i < W % T then W / T + 1 else W / T := by
  unfold partitionWork
  by_cases h : i < W % T
  · rw [if_pos h, if_pos h]
  · rw [if_neg h, if_neg h]

theorem partitionWork_start_mono (T W : Nat) {i j : Nat} (hij : i ≤ j) :
    (partitionWork T W i).1 ≤ (partitionWork T W j).1 := by
  rw [partitionWork_start, partitionWork_start]
  exact Nat.add_le_add (Nat.mul_le_mul_left _ hij) (by omega)

theorem partitionWork_next (T W i : Nat) :
    (partitionWork T W (i + 1)).1 = (partitionWork T W i).1 + (partitionWork T W i).2 := by
  rw [partitionWork_start, partitionWork_start, partitionWork_count, Nat.mul_succ]
  by_cases h : i < W % T
  · rw [if_pos h]
    omega
  · rw [if_neg h]
    omega

theorem partitionWork_end (T W : Nat) (hT : 1 ≤ T) :
    (partitionWork T W (T - 1)).1 + (partitionWork T W (T - 1)).2 = W := by
  have h := partitionWork_next T W (T - 1)
  have hT1 : T - 1 + 1 = T := by omega
  rw [hT1] at h
  rw [← h, partitionWork_start]
  have hmod : W % T < T := Nat.mod_lt _ (by omega)
  have hmin : min T (W % T) = W % T := by omega
  rw [hmin]
  have hdm : W / T * T + W % T = W := Nat.div_add_mod' W T
  omega

/-- Existence half of the union property: every `x < W` lies in some
worker's range. -/
theorem partitionWork_covers (T W x : Nat) (hT : 1 ≤ T) (hx : x < W) :
    ∃ i, i < T ∧ (partitionWork T W i).1 ≤ x ∧
      x < (partitionWork T W i).1 + (partitionWork T W i).2 := by
  classical
  set P : Nat → Prop := fun k => (partitionWork T W k).1 ≤ x with hP
  have h0 : P 0 := by
    simp only [hP, partitionWork_start]
    omega
  set i := Nat.findGreatest P (T - 1) with hi
  have hile : i ≤ T - 1 := Nat.findGreatest_le (T - 1)
  have hspec : P i := Nat.findGreatest_spec (Nat.zero_le (T - 1)) h0
  refine ⟨i, by omega, hspec, ?_⟩
  by_contra hcon
  push_neg at hcon
  have hnext : (partitionWork T W (i + 1)).1 ≤ x := by
    rw [partitionWork_next]
    exact hcon
  by_cases hlast : i + 1 ≤ T - 1
  · exact (@Nat.findGreatest_is_greatest (i + 1) P _ (T - 1) (by omega) hlast) hnext
  · have hieq : i = T - 1 := by omega
    have hend := partitionWork_end T W hT
    rw [hieq] at hcon
    omega

/-- Claim C5: with `q = W / T` and `r = W % T`, `PartitionWork` gives thread
`i < r` the range starting at `(q+1)·i` with `q+1` items and thread `i ≥ r`
the range starting at `(q+1)·r + q·(i-r)` with `q` items; over all threads
the ranges are contiguous, pairwise disjoint, their union is `[0, W)`, and
when `W < T` every thread `i ≥ W` receives zero work. -/
theorem c5_partition_work (T W i : Nat) (hT : 1 ≤ T) (hi : i < T) :
    (i < W % T →
      (partitionWork T W i).1 = (W / T + 1) * i ∧ (partitionWork T W i).2 = W / T + 1) ∧
    (W % T ≤ i →
      (partitionWork T W i).1 = (W / T + 1) * (W % T) + (W / T) * (i - W % T) ∧
      (partitionWork T W i).2 = W / T) ∧
    (∀ j, (partitionWork T W (j + 1)).1 =
      (partitionWork T W j).1 + (partitionWork T W j).2) ∧
    (∀ x, x < W → ∃ j, j < T ∧ (partitionWork T W j).1 ≤ x ∧
      x < (partitionWork T W j).1 + (partitionWork T W j).2) ∧
    (∀ j x, j < T → (partitionWork T W j).1 ≤ x →
      x < (partitionWork T W j).1 + (partitionWork T W j).2 → x < W) ∧
    (∀ j k x, j < T → k < T →
      (partitionWork T W j).1 ≤ x → x < (partitionWork T W j).1 + (partitionWork T W j).2 →
      (partitionWork T W k).1 ≤ x → x < (partitionWork T W k).1 + (partitionWork T W k).2 →
      j = k) ∧
    (W < T → W ≤ i → (partitionWork T W i).2 = 0) := by
  have hstartT : (partitionWork T W T).1 = W := by
    have h := partitionWork_next T W (T - 1)
    have hT1 : T - 1 + 1 = T := by omega
    rw [hT1] at h
    rw [h]
    exact partitionWork_end T W hT
  refine ⟨?_, ?_, partitionWork_next T W, fun x hx => partitionWork_covers T W x hT hx,
    ?_, ?_, ?_⟩
  · intro h
    unfold partitionWork
    rw [if_pos h]
    exact ⟨rfl, rfl⟩
  · intro h
    unfold partitionWork
    rw [if_neg (by omega)]
    refine ⟨?_, rfl⟩
    have h2 : (W / T) * i = (W / T) * (W % T) + (W / T) * (i - W % T) := by
      rw [← Nat.mul_add]
      congr 1
      omega
    have h3 : (W / T + 1) * (W % T) = (W / T) * (W % T) + W % T := by ring
    dsimp only
    omega
  · intro j x hj h1 h2
    have h3 : (partitionWork T W (j + 1)).1 ≤ (partitionWork T W T).1 :=
      partitionWork_start_mono T W (by omega)
    rw [partitionWork_next] at h3
    omega
  · intro j k x hj hk hj1 hj2 hk1 hk2
    rcases lt_trichotomy j k with h | h | h
    · exfalso
      have h3 : (partitionWork T W (j + 1)).1 ≤ (partitionWork T W k).1 :=
        partitionWork_start_mono T W (by omega)
      rw [partitionWork_next] at h3
      omega
    · exact h
    · exfalso
      have h3 : (partitionWork T W (k + 1)).1 ≤ (partitionWork T W j).1 :=
        partitionWork_start_mono T W (by omega)
      rw [partitionWork_next] at h3
      omega
  · intro hWT hWi
    unfold partitionWork
    have hr : W % T = W := Nat.mod_eq_of_lt hWT
    rw [if_neg (by omega)]
    dsimp only
    exact Nat.div_eq_of_lt hWT

theorem c5_witness :
    1 ≤ 3 ∧ 1 < 3 ∧
    ((1 < 7 % 3 →
      (partitionWork 3 7 1).1 = (7 / 3 + 1) * 1 ∧ (partitionWork 3 7 1).2 = 7 / 3 + 1) ∧
    (7 % 3 ≤ 1 →
      (partitionWork 3 7 1).1 = (7 / 3 + 1) * (7 % 3) + (7 / 3) * (1 - 7 % 3) ∧
      (partitionWork 3 7 1).2 = 7 / 3) ∧
    (∀ j, (partitionWork 3 7 (j + 1)).1 =
      (partitionWork 3 7 j).1 + (partitionWork 3 7 j).2) ∧
    (∀ x, x < 7 → ∃ j, j < 3 ∧ (partitionWork 3 7 j).1 ≤ x ∧
      x < (partitionWork 3 7 j).1 + (partitionWork 3 7 j).2) ∧
    (∀ j x, j < 3 → (partitionWork 3 7 j).1 ≤ x →
      x < (partitionWork 3 7 j).1 + (partitionWork 3 7 j).2 → x < 7) ∧
    (∀ j k x, j < 3 → k < 3 →
      (partitionWork 3 7 j).1 ≤ x → x < (partitionWork 3 7 j).1 + (partitionWork 3 7 j).2 →
      (partitionWork 3 7 k).1 ≤ x → x < (partitionWork 3 7 k).1 + (partitionWork 3 7 k).2 →
      j = k) ∧
    (7 < 3 → 7 ≤ 1 → (partitionWork 3 7 1).2 = 0)) :=
  ⟨by decide, by decide, c5_partition_work 3 7 1 (by decide) (by decide)⟩

/-! ### `KernelFlags` construction of the convolution executors

The activation kinds are modelled from the spec's activation record
(`{Identity, ReLU, LeakyReLU, Clip, Sigmoid, Tanh, HardSigmoid}`); the
executors only compare the kind against `MlasReluActivation` and
`MlasIdentityActivation`.
-/

/-- Modelled from the spec: the `MLAS_ACTIVATION_KIND` enumeration lives in
the (absent) `mlasi.h` header; the spec's activation record lists the
variants, and the executors only compare against
`MlasReluActivation` / `MlasIdentityActivation`. -/
inductive MLAS_ACTIVATION_KIND where
  | MlasIdentityActivation
  | MlasReluActivation
  | MlasLeakyReluActivation
  | MlasClipActivation
  | MlasLogisticActivation
  | MlasTanhActivation
  | MlasHardSigmoidActivation
deriving DecidableEq

/-- The flag word built by the grouped convolution executors for the input
channel position `ic`, where `ChannelStep` is the amount by which the
channel loop advances (`BlockSize` for NCHWc-direct, `1` for
NCHW-to-NCHWc, the input-channel batch for pointwise).  Mirrors
snchwc.cpp lines 598-615 / 730-747 / 855-872. -/
def convKernelFlags (ZeroMode BiasPresent : Bool) (ak : MLAS_ACTIVATION_KIND)
    (ic ChannelStep InputChannels : Nat) : Nat :=
  let f0 : Nat := if ic ≠ 0 ∨ ZeroMode = false then 0 ||| 1 else 0
  if ic + ChannelStep = InputChannels then
    let f1 := if BiasPresent then f0 ||| 2 else f0
    if ak = .MlasReluActivation then f1 ||| 4
    else if ak ≠ .MlasIdentityActivation then f1 ||| 8
    else f1
  else f0

/-- Flag word of `MLAS_NCHWC_CONV_NCHWC_ALGORITHM::Execute` (channel step
`BlockSize`). -/
def nchwcConvKernelFlags (BlockSize : Nat) (ZeroMode BiasPresent : Bool)
    (ak : MLAS_ACTIVATION_KIND) (ic InputChannels : Nat) : Nat :=
  convKernelFlags ZeroMode BiasPresent ak ic BlockSize InputChannels

/-- Flag word of `MLAS_NCHWC_CONV_NCHW_ALGORITHM::Execute` (channel step
`1`). -/
def nchwConvKernelFlags (ZeroMode BiasPresent : Bool) (ak : MLAS_ACTIVATION_KIND)
    (icc InputChannels : Nat) : Nat :=
  convKernelFlags ZeroMode BiasPresent ak icc 1 InputChannels

/-- Flag word of `MLAS_NCHWC_CONV_POINTWISE_ALGORITHM::Execute` (channel
step `InputChannelBatch = min(InputChannels - ic, 128)`). -/
def pointwiseConvKernelFlags (ZeroMode BiasPresent : Bool) (ak : MLAS_ACTIVATION_KIND)
    (ic InputChannels : Nat) : Nat :=
  convKernelFlags ZeroMode BiasPresent ak ic (min (InputChannels - ic) 128) InputChannels

theorem convKernelFlags_testBit (ZeroMode BiasPresent : Bool) (ak : MLAS_ACTIVATION_KIND)
    (ic ChannelStep InputChannels : Nat) :
    ((convKernelFlags ZeroMode BiasPresent ak ic ChannelStep InputChannels).testBit 0 = true ↔
      (ic ≠ 0 ∨ ZeroMode = false)) ∧
    ((convKernelFlags ZeroMode BiasPresent ak ic ChannelStep InputChannels).testBit 1 = true ↔
      (ic + ChannelStep = InputChannels ∧ BiasPresent = true)) ∧
    ((convKernelFlags ZeroMode BiasPresent ak ic ChannelStep InputChannels).testBit 2 = true ↔
      (ic + ChannelStep = InputChannels ∧ ak = .MlasReluActivation)) ∧
    ((convKernelFlags ZeroMode BiasPresent ak ic ChannelStep InputChannels).testBit 3 = true ↔
      (ic + ChannelStep = InputChannels ∧ ak ≠ .MlasReluActivation ∧
        ak ≠ .MlasIdentityActivation)) := by
  unfold convKernelFlags
  by_cases h0 : ic ≠ 0 ∨ ZeroMode = false <;>
    by_cases h1 : ic + ChannelStep = InputChannels <;>
      by_cases h2 : ak = .MlasReluActivation <;>
        by_cases h3 : ak = .MlasIdentityActivation <;>
          by_cases h4 : BiasPresent <;>
            simp_all <;> decide

/-- Claim C4: in the NCHWc-direct, NCHW-to-NCHWc and pointwise executors,
bit 1 (add-bias), bit 2 (fused ReLU) and bit 3 (deferred activation) are
set exactly on the final-writer call (`ic + step = InputChannels`), with
bias requiring a bias pointer, ReLU requiring the ReLU activation kind and
deferred requiring a kind that is neither identity nor ReLU; bit 0
(accumulate) is set iff `ic ≠ 0` or `ZeroMode` is false. -/
theorem c4_kernel_flags (BlockSize : Nat) (ZeroMode BiasPresent : Bool)
    (ak : MLAS_ACTIVATION_KIND) (ic InputChannels : Nat) :
    (((nchwcConvKernelFlags BlockSize ZeroMode BiasPresent ak ic InputChannels).testBit 0 =
        true ↔ (ic ≠ 0 ∨ ZeroMode = false)) ∧
     ((nchwcConvKernelFlags BlockSize ZeroMode BiasPresent ak ic InputChannels).testBit 1 =
        true ↔ (ic + BlockSize = InputChannels ∧ BiasPresent = true)) ∧
     ((nchwcConvKernelFlags BlockSize ZeroMode BiasPresent ak ic InputChannels).testBit 2 =
        true ↔ (ic + BlockSize = InputChannels ∧ ak = .MlasReluActivation)) ∧
     ((nchwcConvKernelFlags BlockSize ZeroMode BiasPresent ak ic InputChannels).testBit 3 =
        true ↔ (ic + BlockSize = InputChannels ∧ ak ≠ .MlasReluActivation ∧
          ak ≠ .MlasIdentityActivation))) ∧
    (((nchwConvKernelFlags ZeroMode BiasPresent ak ic InputChannels).testBit 0 =
        true ↔ (ic ≠ 0 ∨ ZeroMode = false)) ∧
     ((nchwConvKernelFlags ZeroMode BiasPresent ak ic InputChannels).testBit 1 =
        true ↔ (ic + 1 = InputChannels ∧ BiasPresent = true)) ∧
     ((nchwConvKernelFlags ZeroMode BiasPresent ak ic InputChannels).testBit 2 =
        true ↔ (ic + 1 = InputChannels ∧ ak = .MlasReluActivation)) ∧
     ((nchwConvKernelFlags ZeroMode BiasPresent ak ic InputChannels).testBit 3 =
        true ↔ (ic + 1 = InputChannels ∧ ak ≠ .MlasReluActivation ∧
          ak ≠ .MlasIdentityActivation))) ∧
    (((pointwiseConvKernelFlags ZeroMode BiasPresent ak ic InputChannels).testBit 0 =
        true ↔ (ic ≠ 0 ∨ ZeroMode = false)) ∧
     ((pointwiseConvKernelFlags ZeroMode BiasPresent ak ic InputChannels).testBit 1 =
        true ↔ (ic + min (InputChannels - ic) 128 = InputChannels ∧ BiasPresent = true)) ∧
     ((pointwiseConvKernelFlags ZeroMode BiasPresent ak ic InputChannels).testBit 2 =
        true ↔ (ic + min (InputChannels - ic) 128 = InputChannels ∧
          ak = .MlasReluActivation)) ∧
     ((pointwiseConvKernelFlags ZeroMode BiasPresent ak ic InputChannels).testBit 3 =
        true ↔ (ic + min (InputChannels - ic) 128 = InputChannels ∧
          ak ≠ .MlasReluActivation ∧ ak ≠ .MlasIdentityActivation))) :=
  ⟨convKernelFlags_testBit ZeroMode BiasPresent ak ic BlockSize InputChannels,
   convKernelFlags_testBit ZeroMode BiasPresent ak ic 1 InputChannels,
   convKernelFlags_testBit ZeroMode BiasPresent ak ic (min (InputChannels - ic) 128)
     InputChannels⟩

/-! ### The algorithm selector of `MlasNchwcConv` (snchwc.cpp, lines 1235-1260) -/

inductive ConvAlgorithmTag where
  | Pointwise
  | NchwcDirect
  | Depthwise
  | NchwToNchwc
deriving DecidableEq

/-- Kernel shape after the preprocessor's defaulting: a null `KernelShape`
defaults each dimension to the input length. -/
def effectiveKernelShape (IS0 IS1 : Nat) (K : Option (Nat × Nat)) : Nat × Nat :=
  K.getD (IS0, IS1)

/-- Padding after the preprocessor's defaulting: a null `Padding` defaults
to zero. -/
def effectivePadding (P : Option (Nat × Nat × Nat × Nat)) : Nat × Nat × Nat × Nat :=
  P.getD (0, 0, 0, 0)

/-- The convolution algorithm selection of `MlasNchwcConv`: after
`MlasPrepareNchwcWorkBlock` fills in defaults, the entry divides the
channel counts by `GroupCount` and picks the algorithm from the per-group
counts, the (defaulted) kernel shape and the (defaulted) padding. -/
def mlasNchwcConvSelect (BlockSize InputChannels OutputChannels GroupCount IS0 IS1 : Nat)
    (K : Option (Nat × Nat)) (P : Option (Nat × Nat × Nat × Nat)) : ConvAlgorithmTag :=
  let ic := InputChannels / GroupCount
  let oc := OutputChannels / GroupCount
  let k := effectiveKernelShape IS0 IS1 K
  let p := effectivePadding P
  if BlockSize ≤ ic then
    if k.1 = 1 ∧ k.2 = 1 ∧ p.1 = 0 ∧ p.2.1 = 0 ∧ p.2.2.1 = 0 ∧ p.2.2.2 = 0 then
      .Pointwise
    else .NchwcDirect
  else if ic = 1 ∧ oc = 1 then .Depthwise
  else .NchwToNchwc

/-- Claim C6: the selector works on the per-group channel counts
(`InputChannels / GroupCount`, `OutputChannels / GroupCount`) and chooses,
in order: Pointwise iff per-group `C_in ≥ B` with a 1x1 kernel and all four
pads zero; else NCHWc-direct iff per-group `C_in ≥ B`; else Depthwise iff
per-group `C_in = 1` and `C_out = 1`; else NCHW-to-NCHWc. -/
theorem c6_algorithm_selection (BlockSize InputChannels OutputChannels GroupCount
    IS0 IS1 : Nat) (K : Option (Nat × Nat)) (P : Option (Nat × Nat × Nat × Nat)) :
    (mlasNchwcConvSelect BlockSize InputChannels OutputChannels GroupCount IS0 IS1 K P =
        .Pointwise ↔
      (BlockSize ≤ InputChannels / GroupCount ∧
        (effectiveKernelShape IS0 IS1 K).1 = 1 ∧ (effectiveKernelShape IS0 IS1 K).2 = 1 ∧
        (effectivePadding P).1 = 0 ∧ (effectivePadding P).2.1 = 0 ∧
        (effectivePadding P).2.2.1 = 0 ∧ (effectivePadding P).2.2.2 = 0)) ∧
    (mlasNchwcConvSelect BlockSize InputChannels OutputChannels GroupCount IS0 IS1 K P =
        .NchwcDirect ↔
      (BlockSize ≤ InputChannels / GroupCount ∧
        ¬ ((effectiveKernelShape IS0 IS1 K).1 = 1 ∧ (effectiveKernelShape IS0 IS1 K).2 = 1 ∧
          (effectivePadding P).1 = 0 ∧ (effectivePadding P).2.1 = 0 ∧
          (effectivePadding P).2.2.1 = 0 ∧ (effectivePadding P).2.2.2 = 0))) ∧
    (mlasNchwcConvSelect BlockSize InputChannels OutputChannels GroupCount IS0 IS1 K P =
        .Depthwise ↔
      (InputChannels / GroupCount < BlockSize ∧ InputChannels / GroupCount = 1 ∧
        OutputChannels / GroupCount = 1)) ∧
    (mlasNchwcConvSelect BlockSize InputChannels OutputChannels GroupCount IS0 IS1 K P =
        .NchwToNchwc ↔
      (InputChannels / GroupCount < BlockSize ∧
        ¬ (InputChannels / GroupCount = 1 ∧ OutputChannels / GroupCount = 1))) := by
  unfold mlasNchwcConvSelect
  by_cases h1 : BlockSize ≤ InputChannels / GroupCount
  · rw [if_pos h1]
    by_cases h2 : (effectiveKernelShape IS0 IS1 K).1 = 1 ∧
        (effectiveKernelShape IS0 IS1 K).2 = 1 ∧ (effectivePadding P).1 = 0 ∧
        (effectivePadding P).2.1 = 0 ∧ (effectivePadding P).2.2.1 = 0 ∧
        (effectivePadding P).2.2.2 = 0
    · rw [if_pos h2]
      refine ⟨⟨fun _ => ⟨h1, h2⟩, fun _ => rfl⟩, ⟨fun h => (nomatch h), fun h => ?_⟩,
        ⟨fun h => (nomatch h), fun h => ?_⟩, ⟨fun h => (nomatch h), fun h => ?_⟩⟩
      · exact absurd h2 h.2
      · omega
      · omega
    · rw [if_neg h2]
      refine ⟨⟨fun h => (nomatch h), fun h => ?_⟩, ⟨fun _ => ⟨h1, h2⟩, fun _ => rfl⟩,
        ⟨fun h => (nomatch h), fun h => ?_⟩, ⟨fun h => (nomatch h), fun h => ?_⟩⟩
      · exact absurd h.2.1 (by tauto)
      · omega
      · omega
  · rw [if_neg h1]
    by_cases h3 : InputChannels / GroupCount = 1 ∧ OutputChannels / GroupCount = 1
    · rw [if_pos h3]
      refine ⟨⟨fun h => (nomatch h), fun h => ?_⟩, ⟨fun h => (nomatch h), fun h => ?_⟩,
        ⟨fun _ => ⟨by omega, h3⟩, fun _ => rfl⟩, ⟨fun h => (nomatch h), fun h => ?_⟩⟩
      · omega
      · omega
      · exact absurd h3 h.2
    · rw [if_neg h3]
      refine ⟨⟨fun h => (nomatch h), fun h => ?_⟩, ⟨fun h => (nomatch h), fun h => ?_⟩,
        ⟨fun h => (nomatch h), fun h => ?_⟩, ⟨fun _ => ⟨by omega, h3⟩, fun _ => rfl⟩⟩
      · omega
      · omega
      · exact absurd h.2 h3

/-! ### The grouped convolution pointer state machine
(`MLAS_NCHWC_GROUPED_CONV_ALGORITHM`, snchwc.cpp lines 415-542)

Pointers are modelled as exact `Nat` addresses; `FilterBase` / `BiasBase`
are the work-block originals `WorkBlock->Filter` / `WorkBlock->Bias` to
which the executor resets.  `BiasPresent` distinguishes a null bias
pointer. -/

def FilterSetSize : Nat := 4

structure GroupedConvParams where
  BlockSize : Nat
  InputChannels : Nat
  OutputChannels : Nat
  KernelSize : Nat
  InputSize : Nat
  OutputSize : Nat
  OutputHeight : Nat
  GroupCount : Nat
  FilterSetCount : Nat
  FilterBase : Nat
  BiasBase : Nat
  BiasPresent : Bool
deriving DecidableEq

structure GroupedConvState where
  ph : Nat
  FilterSet : Nat
  Group : Nat
  WorkRemaining : Nat
  FilterCount : Nat
  Input : Nat
  Output : Nat
  Filter : Nat
  Bias : Nat
deriving DecidableEq

/-- `MLAS_NCHWC_GROUPED_CONV_ALGORITHM::ComputeFilterCount`. -/
def computeFilterCount (p : GroupedConvParams) (fs : Nat) : Nat :=
  min FilterSetSize (sub64 (p.OutputChannels / p.BlockSize) (fs * FilterSetSize))

/-- `MLAS_NCHWC_GROUPED_CONV_ALGORITHM::CompleteWork`. -/
def completeWork (p : GroupedConvParams) (s : GroupedConvState)
    (WorkThisIteration : Nat) : GroupedConvState :=
  let wr := s.WorkRemaining - WorkThisIteration
  let ph2 := s.ph + WorkThisIteration
  if ph2 = p.OutputHeight then
    let BlockedFilterCount := p.BlockSize * s.FilterCount
    let out2 := s.Output + BlockedFilterCount * p.OutputSize
    let flt2 := s.Filter + BlockedFilterCount * (p.InputChannels * p.KernelSize)
    let bia2 := if p.BiasPresent then s.Bias + BlockedFilterCount else s.Bias
    let fs2 := s.FilterSet + 1
    if fs2 = p.FilterSetCount then
      let inp2 := s.Input + p.InputChannels * p.InputSize
      let g2 := s.Group + 1
      if g2 = p.GroupCount then
        { ph := 0, FilterSet := 0, Group := 0, WorkRemaining := wr,
          FilterCount := computeFilterCount p 0,
          Input := inp2, Output := out2, Filter := p.FilterBase, Bias := p.BiasBase }
      else
        { ph := 0, FilterSet := 0, Group := g2, WorkRemaining := wr,
          FilterCount := computeFilterCount p 0,
          Input := inp2, Output := out2, Filter := flt2, Bias := bia2 }
    else
      { ph := 0, FilterSet := fs2, Group := s.Group, WorkRemaining := wr,
        FilterCount := computeFilterCount p fs2,
        Input := s.Input, Output := out2, Filter := flt2, Bias := bia2 }
  else
    { s with ph := ph2, WorkRemaining := wr }

/-- Claim C8 is false as stated: completing the last output row of the last
filter set of a group (`FilterSet` wraps to `FilterSetCount`) does *not*
reset `Filter` / `Bias` to the work-block originals when further groups
remain — the pointers keep advancing into the next group's filter region.
Concrete input: `FilterSetCount = 1`, `GroupCount = 2`, one output row, all
strides 1; after `CompleteWork` the filter pointer sits one
`BlockedFilterCount * InputChannels * KernelSize` past the base. -/
theorem c8_counterexample :
    (GroupedConvState.ph ⟨0, 0, 0, 5, 1, 0, 0, 0, 0⟩ + 1 =
      GroupedConvParams.OutputHeight ⟨8, 8, 8, 9, 100, 100, 1, 2, 1, 0, 0, true⟩) ∧
    (GroupedConvState.FilterSet ⟨0, 0, 0, 5, 1, 0, 0, 0, 0⟩ + 1 =
      GroupedConvParams.FilterSetCount ⟨8, 8, 8, 9, 100, 100, 1, 2, 1, 0, 0, true⟩) ∧
    (completeWork ⟨8, 8, 8, 9, 100, 100, 1, 2, 1, 0, 0, true⟩ ⟨0, 0, 0, 5, 1, 0, 0, 0, 0⟩
        1).Filter ≠
      GroupedConvParams.FilterBase ⟨8, 8, 8, 9, 100, 100, 1, 2, 1, 0, 0, true⟩ ∧
    (completeWork ⟨8, 8, 8, 9, 100, 100, 1, 2, 1, 0, 0, true⟩ ⟨0, 0, 0, 5, 1, 0, 0, 0, 0⟩
        1).Bias ≠
      GroupedConvParams.BiasBase ⟨8, 8, 8, 9, 100, 100, 1, 2, 1, 0, 0, true⟩ := by
  decide

/-- Claim C8, amended: `CompleteWork` resets `Filter` and `Bias` to the
work-block originals exactly when, at the end of an output image, the last
filter set of the *last* group completes — i.e. `FilterSet` wraps to
`FilterSetCount` *and* `Group` wraps to `GroupCount`. -/
theorem c8_filter_bias_reset (p : GroupedConvParams) (s : GroupedConvState)
    (WorkThisIteration : Nat)
    (hph : s.ph + WorkThisIteration = p.OutputHeight)
    (hfs : s.FilterSet + 1 = p.FilterSetCount)
    (hg : s.Group + 1 = p.GroupCount) :
    (completeWork p s WorkThisIteration).Filter = p.FilterBase ∧
    (completeWork p s WorkThisIteration).Bias = p.BiasBase := by
  unfold completeWork
  rw [if_pos hph, if_pos hfs, if_pos hg]
  exact ⟨rfl, rfl⟩

theorem c8_witness :
    (GroupedConvState.ph ⟨0, 0, 1, 5, 1, 0, 0, 7, 3⟩ + 1 =
      GroupedConvParams.OutputHeight ⟨8, 8, 8, 9, 100, 100, 1, 2, 1, 11, 13, true⟩) ∧
    (GroupedConvState.FilterSet ⟨0, 0, 1, 5, 1, 0, 0, 7, 3⟩ + 1 =
      GroupedConvParams.FilterSetCount ⟨8, 8, 8, 9, 100, 100, 1, 2, 1, 11, 13, true⟩) ∧
    (GroupedConvState.Group ⟨0, 0, 1, 5, 1, 0, 0, 7, 3⟩ + 1 =
      GroupedConvParams.GroupCount ⟨8, 8, 8, 9, 100, 100, 1, 2, 1, 11, 13, true⟩) ∧
    (completeWork ⟨8, 8, 8, 9, 100, 100, 1, 2, 1, 11, 13, true⟩ ⟨0, 0, 1, 5, 1, 0, 0, 7, 3⟩
        1).Filter = 11 ∧
    (completeWork ⟨8, 8, 8, 9, 100, 100, 1, 2, 1, 11, 13, true⟩ ⟨0, 0, 1, 5, 1, 0, 0, 7, 3⟩
        1).Bias = 13 :=
  ⟨by decide, by decide, by decide,
   (c8_filter_bias_reset ⟨8, 8, 8, 9, 100, 100, 1, 2, 1, 11, 13, true⟩ ⟨0, 0, 1, 5, 1, 0, 0, 7, 3⟩
     1 (by decide) (by decide) (by decide)).1,
   (c8_filter_bias_reset ⟨8, 8, 8, 9, 100, 100, 1, 2, 1, 11, 13, true⟩ ⟨0, 0, 1, 5, 1, 0, 0, 7, 3⟩
     1 (by decide) (by decide) (by decide)).2⟩

/-! ### The effective-kernel helper
(`MLAS_NCHWC_CONV_ALGORITHM::ComputeEffectiveKernel`, snchwc.cpp lines
348-385, and the identical inline walk of the pooling executor, lines
1094-1114)

The walk operates on `size_t` values: a "negative" first row produced by
`ph * StrideHeight - PaddingLeftY` wraps around to a huge value, which the
`ihStep >= InputHeight` test then classifies as out of range.  The
effective-height decrement can never wrap because the loop decrements at
most once per iteration and starts from the iteration count, so it is
plain `Nat` subtraction; the filter advance is modelled as the number of
`FilterStride` steps added to the filter pointer. -/

def effKernelLoop (DH IH : Nat) : Nat → Nat → Nat → Nat → Nat → Nat × Nat × Nat
  | 0, _, ih, eff, fadv => (ih, eff, fadv)
  | n + 1, ihStep, ih, eff, fadv =>
    if IH ≤ ihStep then
      if ihStep = ih then
        effKernelLoop DH IH n ((ihStep + DH) % W64) ((ih + DH) % W64) (eff - 1) (fadv + 1)
      else
        effKernelLoop DH IH n ((ihStep + DH) % W64) ih (eff - 1) fadv
    else
      effKernelLoop DH IH n ((ihStep + DH) % W64) ih eff fadv

/-- The simulated-walk branch of `ComputeEffectiveKernel` (taken when the
output row is in a pad region): starting from
`ih = ph * StrideHeight - PaddingLeftY` it walks `KernelHeight` steps of
`DilationHeight` and returns `(ih, EffectiveKernelHeight, filter-advance)`. -/
def slowKernelWalk (SH PL KH DH IH ph : Nat) : Nat × Nat × Nat :=
  let ih := sub64 (mul64 ph SH) PL
  effKernelLoop DH IH KH ih ih KH 0

/-- `ComputeEffectiveKernel`: fast path for interior rows
(`ph - OutputCountLeftPadY < OutputCountY` in `size_t` arithmetic),
simulated walk otherwise.  Returns `(ih, EffectiveKernelHeight,
filter-advance)`. -/
def computeEffectiveKernel (SH PL KH DH IH Lpad Mid ph : Nat) : Nat × Nat × Nat :=
  if Mid ≤ sub64 ph Lpad then
    slowKernelWalk SH PL KH DH IH ph
  else
    (sub64 (mul64 ph SH) PL, KH, 0)

/-- The first input row index of output row `ph`, as a mathematical
integer: `ph * SH - PL`. -/
def rowStart (ph SH PL : Nat) : Int := ((ph * SH : Nat) : Int) - (PL : Int)

/-- Number of kernel rows among the first `n` whose input row index is
negative (reads above the input). -/
def negCnt (t : Int) (DH n : Nat) : Nat :=
  natCount (fun k => decide (t + (k : Int) * (DH : Int) < 0)) n

/-- Number of kernel rows among the first `n` whose input row index is
`≥ IH` (reads below the input). -/
def topCnt (t : Int) (DH IH n : Nat) : Nat :=
  natCount (fun k => decide ((IH : Int) ≤ t + (k : Int) * (DH : Int))) n

/-- Comparing `IH` against an encoded row index matches the integer-level
classification of the row as out of range. -/
theorem nat_le_enc_iff {IH : Nat} {t : Int} (hlow : (IH : Int) - (W64 : Nat) < t)
    (hup : t < (W64 : Nat)) : (IH ≤ enc t) ↔ (t < 0 ∨ (IH : Int) ≤ t) := by
  simp only [enc, W64] at *
  omega

/-- Once the frozen input row `ih` is strictly inside the input, later loop
steps only trim the height: the equality test `ihStep = ih` can never fire
because a trimming step has `ihStep ≥ IH > ih`. -/
theorem effKernelLoop_frozen (DH IH : Nat) : ∀ (n s ih eff fadv : Nat), s < W64 → ih < IH →
    effKernelLoop DH IH n s ih eff fadv =
      (ih, eff - natCount (fun k => decide (IH ≤ (s + k * DH) % W64)) n, fadv) := by
  intro n
  induction n with
  | zero =>
    intro s ih eff fadv _ _
    simp [effKernelLoop, natCount]
  | succ n ihind =>
    intro s ih eff fadv hs hih
    have hmod : (s + DH) % W64 < W64 := Nat.mod_lt _ W64_pos
    have hcnt : natCount (fun k => decide (IH ≤ (s + k * DH) % W64)) (n + 1) =
        (if IH ≤ s then 1 else 0) +
          natCount (fun k => decide (IH ≤ ((s + DH) % W64 + k * DH) % W64)) n := by
      rw [natCount_succ_shift]
      congr 1
      · simp [Nat.mod_eq_of_lt hs]
      · apply natCount_congr
        intro k _
        have : ((s + DH) % W64 + k * DH) % W64 = (s + (k + 1) * DH) % W64 := by
          rw [Nat.mod_add_mod]
          congr 1
          ring
        rw [this]
    by_cases hstep : IH ≤ s
    · have hne : ¬ (s = ih) := by omega
      rw [show effKernelLoop DH IH (n + 1) s ih eff fadv =
          effKernelLoop DH IH n ((s + DH) % W64) ih (eff - 1) fadv from by
        simp [effKernelLoop, hstep, hne]]
      rw [ihind _ ih (eff - 1) fadv hmod hih, hcnt, if_pos hstep]
      refine congrArg (fun z => (ih, z, fadv)) ?_
      omega
    · rw [show effKernelLoop DH IH (n + 1) s ih eff fadv =
          effKernelLoop DH IH n ((s + DH) % W64) ih eff fadv from by
        simp [effKernelLoop, hstep]]
      rw [ihind _ ih eff fadv hmod hih, hcnt, if_neg hstep]
      refine congrArg (fun z => (ih, z, fadv)) ?_
      omega

theorem triple_eq {a1 a2 b1 b2 c1 c2 : Nat} (ha : a1 = a2) (hb : b1 = b2) (hc : c1 = c2) :
    ((a1, b1, c1) : Nat × Nat × Nat) = (a2, b2, c2) := by
  subst ha; subst hb; subst hc; rfl

/-- Full characterization of the simulated walk, over mathematical
integers: writing `L` / `U` for the number of kernel rows whose input row
index is negative / at least `IH`, the walk returns the first valid row,
the number of valid rows and a filter advance of `L` when at least one row
is valid, and otherwise advances through the entire kernel. -/
theorem effKernelLoop_char (DH IH : Nat) (hDH : 1 ≤ DH) :
    ∀ (n : Nat) (t : Int) (eff fadv : Nat),
      (IH : Int) - (W64 : Nat) < t →
      t + (n : Int) * (DH : Int) < (W64 : Nat) →
      effKernelLoop DH IH n (enc t) (enc t) eff fadv =
        if negCnt t DH n + topCnt t DH IH n < n then
          (Int.toNat (t + (negCnt t DH n : Int) * (DH : Int)),
           eff - (negCnt t DH n + topCnt t DH IH n),
           fadv + negCnt t DH n)
        else (enc (t + (n : Int) * (DH : Int)), eff - n, fadv + n) := by
  intro n
  induction n with
  | zero =>
    intro t eff fadv _ _
    simp [effKernelLoop, negCnt, topCnt, natCount]
  | succ n ihind =>
    intro t eff fadv hlow hup
    have hDHpos : (0 : Int) ≤ (DH : Int) := Int.natCast_nonneg DH
    have hmulpos : (0 : Int) ≤ ((n : Int) + 1) * (DH : Int) := by positivity
    have hcast : ((n + 1 : Nat) : Int) = (n : Int) + 1 := by push_cast; ring
    have htW : t < (W64 : Nat) := by rw [hcast] at hup; omega
    by_cases hval : 0 ≤ t ∧ t < (IH : Int)
    · -- valid first row: the walk freezes `ih` and only counts bottom trims
      have henc : enc t = t.toNat := enc_of_nonneg hval.1 htW
      have hlt : ¬ (IH ≤ enc t) := by rw [henc]; omega
      rw [show effKernelLoop DH IH (n + 1) (enc t) (enc t) eff fadv =
          effKernelLoop DH IH n ((enc t + DH) % W64) (enc t) eff fadv from by
        simp [effKernelLoop, hlt]]
      rw [effKernelLoop_frozen DH IH n _ (enc t) eff fadv (Nat.mod_lt _ W64_pos)
        (by rw [henc]; omega)]
      have hrow : ∀ k : Nat, k < n →
          ((enc t + DH) % W64 + k * DH) % W64 = enc (t + ((DH + k * DH : Nat) : Int)) := by
        intro k _
        rw [Nat.mod_add_mod, Nat.add_assoc, enc_add_nat]
      have hcnt_eq : natCount (fun k => decide (IH ≤ ((enc t + DH) % W64 + k * DH) % W64)) n =
          natCount (fun k => decide ((IH : Int) ≤ t + ((k : Int) + 1) * (DH : Int))) n := by
        apply natCount_congr
        intro k hk
        rw [hrow k hk]
        have hkb : ((DH + k * DH : Nat) : Int) = ((k : Int) + 1) * (DH : Int) := by
          push_cast; ring
        have hkup : t + ((k : Int) + 1) * (DH : Int) < (W64 : Nat) := by
          have h1 : ((k : Int) + 1) * (DH : Int) ≤ ((n : Int) + 1) * (DH : Int) := by
            have : (k : Int) + 1 ≤ (n : Int) + 1 := by omega
            exact mul_le_mul_of_nonneg_right this hDHpos
          rw [hcast] at hup
          omega
        have hklow : (IH : Int) - (W64 : Nat) < t + ((k : Int) + 1) * (DH : Int) := by
          have : (0 : Int) ≤ ((k : Int) + 1) * (DH : Int) := by positivity
          omega
        rw [hkb, decide_eq_decide, nat_le_enc_iff hklow hkup]
        have hnn : ¬ (t + ((k : Int) + 1) * (DH : Int) < 0) := by
          have : (0 : Int) ≤ ((k : Int) + 1) * (DH : Int) := by positivity
          omega
        tauto
      have hneg : negCnt t DH (n + 1) = 0 := by
        apply natCount_eq_zero
        intro k _
        have : (0 : Int) ≤ (k : Int) * (DH : Int) := by positivity
        simp only [decide_eq_false_iff_not]
        omega
      have htop : topCnt t DH IH (n + 1) =
          natCount (fun k => decide ((IH : Int) ≤ t + ((k : Int) + 1) * (DH : Int))) n := by
        unfold topCnt
        rw [natCount_succ_shift]
        have h0 : decide ((IH : Int) ≤ t + ((0 : Nat) : Int) * (DH : Int)) = false := by
          simp only [decide_eq_false_iff_not]
          push_cast
          omega
        rw [h0]
        simp only [Bool.false_eq_true, if_false, Nat.zero_add]
        apply natCount_congr
        intro k _
        have hcc : t + ((k + 1 : Nat) : Int) * (DH : Int) = t + ((k : Int) + 1) * (DH : Int) := by
          push_cast; ring
        rw [hcc]
      have hcond : negCnt t DH (n + 1) + topCnt t DH IH (n + 1) < n + 1 := by
        have := natCount_le (fun k => decide ((IH : Int) ≤ t + ((k : Int) + 1) * (DH : Int))) n
        omega
      rw [if_pos hcond, hcnt_eq, ← htop, hneg]
      refine triple_eq ?_ (by omega) rfl
      rw [henc]
      congr 1
      push_cast
      ring
    · -- invalid first row: the walk advances `ih` in lockstep and recurses
      have hinv : t < 0 ∨ (IH : Int) ≤ t := by
        rcases lt_or_ge t 0 with h | h
        · exact Or.inl h
        · right
          by_contra hc
          push_neg at hc
          exact hval ⟨h, hc⟩
      have hIHenc : IH ≤ enc t := (nat_le_enc_iff hlow htW).mpr hinv
      rw [show effKernelLoop DH IH (n + 1) (enc t) (enc t) eff fadv =
          effKernelLoop DH IH n ((enc t + DH) % W64) ((enc t + DH) % W64) (eff - 1)
            (fadv + 1) from by simp [effKernelLoop, hIHenc]]
      rw [enc_add_nat t DH]
      have hlow2 : (IH : Int) - (W64 : Nat) < t + (DH : Nat) := by
        omega
      have hup2 : (t + (DH : Nat)) + (n : Int) * (DH : Int) < (W64 : Nat) := by
        rw [hcast] at hup
        have : t + (DH : Nat) + (n : Int) * (DH : Int) = t + ((n : Int) + 1) * (DH : Int) := by
          ring
        omega
      rw [ihind (t + (DH : Nat)) (eff - 1) (fadv + 1) hlow2 hup2]
      rcases hinv with hneg0 | htop0
      · -- the first row is negative (top-edge pad row)
        have hnegrec : negCnt t DH (n + 1) = 1 + negCnt (t + (DH : Nat)) DH n := by
          unfold negCnt
          rw [natCount_succ_shift]
          have h0 : decide (t + ((0 : Nat) : Int) * (DH : Int) < 0) = true := by
            simp only [decide_eq_true_eq]
            push_cast
            omega
          rw [h0]
          simp only [if_true]
          congr 1
          apply natCount_congr
          intro k _
          have hcc : t + ((k + 1 : Nat) : Int) * (DH : Int) =
              t + (DH : Nat) + (k : Int) * (DH : Int) := by
            push_cast; ring
          rw [hcc]
        have htoprec : topCnt t DH IH (n + 1) = topCnt (t + (DH : Nat)) DH IH n := by
          unfold topCnt
          rw [natCount_succ_shift]
          have h0 : decide ((IH : Int) ≤ t + ((0 : Nat) : Int) * (DH : Int)) = false := by
            simp only [decide_eq_false_iff_not]
            have : (0 : Int) ≤ (IH : Int) := Int.natCast_nonneg IH
            push_cast
            omega
          rw [h0]
          simp only [Bool.false_eq_true, if_false, Nat.zero_add]
          apply natCount_congr
          intro k _
          have hcc : t + ((k + 1 : Nat) : Int) * (DH : Int) =
              t + (DH : Nat) + (k : Int) * (DH : Int) := by
            push_cast; ring
          rw [hcc]
        rw [hnegrec, htoprec]
        by_cases hV : negCnt (t + (DH : Nat)) DH n + topCnt (t + (DH : Nat)) DH IH n < n
        · rw [if_pos hV, if_pos (by omega)]
          refine triple_eq ?_ (by omega) (by omega)
          congr 1
          push_cast
          ring
        · rw [if_neg hV, if_neg (by omega)]
          refine triple_eq ?_ (by omega) (by omega)
          congr 1
          push_cast
          ring
      · -- the first row is at or below the input bottom: every later row is too
        have hall : ∀ k : Nat, (IH : Int) ≤ t + (k : Int) * (DH : Int) := by
          intro k
          have : (0 : Int) ≤ (k : Int) * (DH : Int) := by positivity
          omega
        have htopall : topCnt t DH IH (n + 1) = n + 1 := by
          apply natCount_eq_self
          intro k _
          simpa using hall k
        have htoprecall : topCnt (t + (DH : Nat)) DH IH n = n := by
          apply natCount_eq_self
          intro k _
          simp only [decide_eq_true_eq]
          have := hall (k + 1)
          push_cast at this ⊢
          have hexp : t + ((k : Int) + 1) * (DH : Int) = t + (DH : Int) + (k : Int) * (DH : Int) := by
            ring
          omega
        rw [htopall, htoprecall]
        rw [if_neg (by omega), if_neg (by omega)]
        refine triple_eq ?_ (by omega) (by omega)
        congr 1
        push_cast
        ring

/-- The number of top-trimmed (negative-index) kernel rows has the closed
form `max(0, ⌈(PL - ph·SH) / DH⌉) = max(0, -⌊(ph·SH - PL) / DH⌋)`, capped
by the kernel height. -/
theorem negCnt_eq_min (t : Int) (DH n : Nat) (hDH : 1 ≤ DH) :
    negCnt t DH n = min n (Int.toNat (-(Int.fdiv t (DH : Int)))) := by
  have hpos : (0 : Int) < (DH : Int) := by exact_mod_cast hDH
  unfold negCnt
  rw [← natCount_lt_const (Int.toNat (-(Int.fdiv t (DH : Int)))) n]
  apply natCount_congr
  intro k _
  rw [decide_eq_decide, Int.fdiv_eq_ediv t (le_of_lt hpos), Int.lt_toNat]
  have hring : (-(k : Int)) * (DH : Int) = -((k : Int) * (DH : Int)) := by ring
  constructor
  · intro h
    have h2 : t / (DH : Int) < -(k : Int) := by
      rw [Int.ediv_lt_iff_lt_mul hpos]
      omega
    omega
  · intro h
    have h2 : t / (DH : Int) < -(k : Int) := by omega
    rw [Int.ediv_lt_iff_lt_mul hpos] at h2
    omega

/-- The number of kernel rows reading strictly above `IH` has the closed
form `n - min n ⌈(IH - t) / DH⌉`. -/
theorem topCnt_eq_sub (t : Int) (DH IH n : Nat) (hDH : 1 ≤ DH) :
    topCnt t DH IH n =
      n - min n (Int.toNat (Int.fdiv ((IH : Int) - t + (DH : Int) - 1) (DH : Int))) := by
  have hpos : (0 : Int) < (DH : Int) := by exact_mod_cast hDH
  have hcompl := natCount_add_compl
    (fun k => decide ((IH : Int) ≤ t + (k : Int) * (DH : Int))) n
  have hvalid : natCount
      (fun k => ! decide ((IH : Int) ≤ t + (k : Int) * (DH : Int))) n =
      min n (Int.toNat (Int.fdiv ((IH : Int) - t + (DH : Int) - 1) (DH : Int))) := by
    rw [← natCount_lt_const
      (Int.toNat (Int.fdiv ((IH : Int) - t + (DH : Int) - 1) (DH : Int))) n]
    apply natCount_congr
    intro k _
    rw [← decide_not, decide_eq_decide, Int.fdiv_eq_ediv _ (le_of_lt hpos), Int.lt_toNat]
    have hring : ((k : Int) + 1) * (DH : Int) = (k : Int) * (DH : Int) + (DH : Int) := by ring
    constructor
    · intro h
      have h2 : (k : Int) + 1 ≤ ((IH : Int) - t + (DH : Int) - 1) / (DH : Int) := by
        rw [Int.le_ediv_iff_mul_le hpos]
        omega
      omega
    · intro h
      have h2 : (k : Int) + 1 ≤ ((IH : Int) - t + (DH : Int) - 1) / (DH : Int) := by omega
      rw [Int.le_ediv_iff_mul_le hpos] at h2
      omega
  unfold topCnt
  omega

/-- The closed-form effective-kernel decomposition described by the
specification (design note on the effective-kernel branch): trim
`ih_trim_top = max(0, ⌈(PL - ph·SH) / DH⌉)` rows at the top, compute the
bottom trim from the count of rows reading past `IH`, set
`KHeff = KH - ih_trim_top - ih_trim_bot`, advance `ih` past the trimmed
top rows and advance the filter by `ih_trim_top` rows.  This definition
follows the specification's words (the spec leaves the bottom-trim
formula implicit; the natural closed form `KH - min(KH, ⌈(IH - t) / DH⌉)`
is used) and is compared against the simulated walk. -/
def closedFormTrim (SH PL KH DH IH ph : Nat) : Nat × Nat × Nat :=
  let t : Int := rowStart ph SH PL
  let trimTop : Nat := Int.toNat (-(Int.fdiv t (DH : Int)))
  let validBelow : Nat := Int.toNat (Int.fdiv ((IH : Int) - t + (DH : Int) - 1) (DH : Int))
  let trimBot : Nat := KH - min KH validBelow
  (Int.toNat (t + (trimTop : Int) * (DH : Int)), KH - trimTop - trimBot, trimTop)

/-- Claim C7 is false as stated: at `SH = 1`, `PL = 1`, `KH = 2`, `DH = 2`,
`IH = 1`, `ph = 0` every kernel row is trimmed (row indices `-1` and `1`),
and the simulated walk keeps advancing `ih` and the filter through the
whole kernel (`ih = 3`, advance `2`) while the closed form stops after the
top-trimmed row (`ih = 1`, advance `1`). -/
theorem c7_counterexample :
    slowKernelWalk 1 1 2 2 1 0 = (3, 0, 2) ∧
    closedFormTrim 1 1 2 2 1 0 = (1, 0, 1) ∧
    slowKernelWalk 1 1 2 2 1 0 ≠ closedFormTrim 1 1 2 2 1 0 := by
  refine ⟨by decide, by decide, ?_⟩
  intro h
  rw [show slowKernelWalk 1 1 2 2 1 0 = (3, 0, 2) from by decide,
    show closedFormTrim 1 1 2 2 1 0 = (1, 0, 1) from by decide] at h
  exact absurd h (by decide)

/-- Claim C7, amended: whenever at least one kernel row survives trimming
(`KHeff > 0`), the closed-form decomposition produces exactly the same
`(ih, KHeff, filter-advance)` triple as the simulated walk; the two differ
only in the degenerate all-trimmed case, where the microkernel reads no
rows. -/
theorem c7_closed_form_equiv (SH PL KH DH IH ph : Nat)
    (hDH : 1 ≤ DH) (hSH : 1 ≤ SH)
    (hb1 : ph * SH < 2 ^ 62) (hb2 : PL < 2 ^ 62) (hb3 : IH < 2 ^ 62)
    (hb4 : KH * DH < 2 ^ 62)
    (hV : negCnt (rowStart ph SH PL) DH KH + topCnt (rowStart ph SH PL) DH IH KH < KH) :
    slowKernelWalk SH PL KH DH IH ph = closedFormTrim SH PL KH DH IH ph := by
  have hW : (2 ^ 62 : Nat) * 4 = W64 := by decide
  have hmul : mul64 ph SH = ph * SH := mul64_eq_of_lt (by unfold W64; omega)
  have henc0 : sub64 (ph * SH) PL = enc (rowStart ph SH PL) := sub64_enc (ph * SH) PL
  have hlow : (IH : Int) - (W64 : Nat) < rowStart ph SH PL := by
    unfold rowStart W64
    omega
  have hcast4 : ((KH : Int)) * (DH : Int) = ((KH * DH : Nat) : Int) := by push_cast; ring
  have hup : rowStart ph SH PL + (KH : Int) * (DH : Int) < (W64 : Nat) := by
    rw [hcast4]
    unfold rowStart W64
    omega
  have hchar := effKernelLoop_char DH IH hDH KH (rowStart ph SH PL) KH 0 hlow hup
  rw [if_pos hV] at hchar
  unfold slowKernelWalk
  rw [hmul, henc0, hchar]
  unfold closedFormTrim
  have hL : negCnt (rowStart ph SH PL) DH KH =
      Int.toNat (-(Int.fdiv (rowStart ph SH PL) (DH : Int))) := by
    have h1 := negCnt_eq_min (rowStart ph SH PL) DH KH hDH
    omega
  have hU : topCnt (rowStart ph SH PL) DH IH KH =
      KH - min KH (Int.toNat (Int.fdiv ((IH : Int) - rowStart ph SH PL + (DH : Int) - 1)
        (DH : Int))) := topCnt_eq_sub (rowStart ph SH PL) DH IH KH hDH
  refine triple_eq ?_ ?_ ?_
  · rw [hL]
  · rw [hL, hU]
    omega
  · rw [hL]
    omega

theorem c7_witness :
    (negCnt (rowStart 0 1 1) 1 3 + topCnt (rowStart 0 1 1) 1 4 3 < 3) ∧
    slowKernelWalk 1 1 3 1 4 0 = closedFormTrim 1 1 3 1 4 0 :=
  ⟨by decide,
   c7_closed_form_equiv 1 1 3 1 4 0 (by decide) (by decide) (by decide) (by decide)
     (by decide) (by decide) (by decide)⟩

theorem natCount_ge_const (c : Nat) : ∀ n, natCount (fun k => decide (c ≤ k)) n = n - min n c := by
  intro n
  have hcompl := natCount_add_compl (fun k => decide (c ≤ k)) n
  have hlt : natCount (fun k => ! decide (c ≤ k)) n = min n c := by
    rw [← natCount_lt_const c n]
    apply natCount_congr
    intro k _
    rw [← decide_not, decide_eq_decide]
    omega
  omega

/-- If some kernel row survives, the row the walk lands on (the
`negCnt`-th) is not negative. -/
theorem negCnt_row_nonneg (t : Int) (DH KH : Nat) (hDH : 1 ≤ DH)
    (hL : negCnt t DH KH < KH) : 0 ≤ t + (negCnt t DH KH : Int) * (DH : Int) := by
  by_contra hneg
  push_neg at hneg
  have hmono : natCount (fun k => decide (k < negCnt t DH KH + 1)) KH ≤
      natCount (fun k => decide (t + (k : Int) * (DH : Int) < 0)) KH := by
    apply natCount_le_mono
    intro k _ hp
    rw [decide_eq_true_eq] at hp
    rw [decide_eq_true_eq]
    have hk : (k : Int) ≤ (negCnt t DH KH : Int) := by
      have : k ≤ negCnt t DH KH := by omega
      exact_mod_cast this
    have := mul_le_mul_of_nonneg_right hk (Int.natCast_nonneg DH)
    omega
  rw [natCount_lt_const] at hmono
  unfold negCnt at *
  omega

/-- Every row of the surviving block reads strictly inside the input. -/
theorem valid_row_lt (t : Int) (DH IH KH kh : Nat) (hDH : 1 ≤ DH)
    (hkh : kh + negCnt t DH KH + topCnt t DH IH KH < KH) :
    t + ((negCnt t DH KH + kh : Nat) : Int) * (DH : Int) < (IH : Int) := by
  by_contra hge
  push_neg at hge
  have hmono : natCount (fun k => decide (negCnt t DH KH + kh ≤ k)) KH ≤
      natCount (fun k => decide ((IH : Int) ≤ t + (k : Int) * (DH : Int))) KH := by
    apply natCount_le_mono
    intro k _ hp
    rw [decide_eq_true_eq] at hp
    rw [decide_eq_true_eq]
    have hk : ((negCnt t DH KH + kh : Nat) : Int) ≤ (k : Int) := by exact_mod_cast hp
    have := mul_le_mul_of_nonneg_right hk (Int.natCast_nonneg DH)
    omega
  rw [natCount_ge_const] at hmono
  unfold topCnt at *
  omega

/-- The number of kernel rows the walk advances the filter pointer by: the
length of the maximal all-trimmed leading block — the count of negative
rows when some row survives, the whole kernel otherwise. -/
def leadTrimCount (t : Int) (DH IH KH : Nat) : Nat :=
  if negCnt t DH KH + topCnt t DH IH KH < KH then negCnt t DH KH else KH

theorem sub64_cases (a b : Nat) (ha : a < W64) (hb : b < W64) :
    sub64 a b = if b ≤ a then a - b else a + W64 - b := by
  unfold sub64 W64 at *
  split <;> omega

/-- Claim C1, amended: for a work block produced by the preprocessor with
`SH, DH, KH, IH ≥ 1` and consistent heights, and for every output row
`ph < OH`, `ComputeEffectiveKernel` returns `ih` and `KHeff` with every
kernel row `ih + kh·DH`, `kh < KHeff`, inside `[0, IH)`, and advances the
filter by exactly one stride per element of the maximal all-trimmed
leading run of kernel rows — provided additionally that the first interior
row's top tap is in bounds (`PL ≤ SH · Lpad`, or the interior is empty).
The original claim, without that proviso, fails: see the counterexample. -/
theorem c1_effective_kernel (IH OH KH DH PL PR SH ph : Nat)
    (hIH1 : 1 ≤ IH) (hIHb : IH < 2 ^ 28) (hKH1 : 1 ≤ KH) (hKHb : KH < 2 ^ 28)
    (hDH1 : 1 ≤ DH) (hDHb : DH < 2 ^ 28) (hSH1 : 1 ≤ SH) (hSHb : SH < 2 ^ 28)
    (hPLb : PL < 2 ^ 28) (hPRb : PR < 2 ^ 28)
    (hspan : spanN KH DH ≤ IH + PL + PR)
    (hOH : OH = (IH + PL + PR - spanN KH DH) / SH + 1)
    (hph : ph < OH)
    (hamend : (prepareNchwcWorkBlockDim IH OH KH DH PL SH).2.1 = 0 ∨
      PL ≤ SH * (prepareNchwcWorkBlockDim IH OH KH DH PL SH).1) :
    (∀ kh, kh < (computeEffectiveKernel SH PL KH DH IH
        (prepareNchwcWorkBlockDim IH OH KH DH PL SH).1
        (prepareNchwcWorkBlockDim IH OH KH DH PL SH).2.1 ph).2.1 →
      (computeEffectiveKernel SH PL KH DH IH
        (prepareNchwcWorkBlockDim IH OH KH DH PL SH).1
        (prepareNchwcWorkBlockDim IH OH KH DH PL SH).2.1 ph).1 + kh * DH < IH) ∧
    (computeEffectiveKernel SH PL KH DH IH
        (prepareNchwcWorkBlockDim IH OH KH DH PL SH).1
        (prepareNchwcWorkBlockDim IH OH KH DH PL SH).2.1 ph).2.2 =
      leadTrimCount (rowStart ph SH PL) DH IH KH := by
  have hOHb : OH < 2 ^ 30 := by
    have hd : (IH + PL + PR - spanN KH DH) / SH ≤ IH + PL + PR - spanN KH DH :=
      Nat.div_le_self _ _
    generalize (IH + PL + PR - spanN KH DH) / SH = x at hOH hd
    omega
  have hOH1 : 1 ≤ OH := by rw [hOH]; exact Nat.le_add_left 1 _
  have hchar := prepareNchwcWorkBlockDim_char IH OH KH DH PL SH hIHb hOHb hKHb hDHb hPLb
    hKH1 hOH1
  set L := (prepareNchwcWorkBlockDim IH OH KH DH PL SH).1 with hLdef
  set M := (prepareNchwcWorkBlockDim IH OH KH DH PL SH).2.1 with hMdef
  have hmid_lt := @midCountN_lt IH KH DH SH hIHb
  have hwp_lt := @withPadCountN_lt IH OH KH DH PL SH hIHb hOHb hPLb
  have hmidwp := midCountN_le_withPadCountN IH OH KH DH PL SH
  have hF1 : L + M = withPadCountN IH OH KH DH PL SH := by
    rw [hLdef, hMdef, hchar]
    by_cases hfix : withPadCountN IH OH KH DH PL SH - midCountN IH KH DH SH = 0 ∧ 0 < PL
    · rw [if_pos hfix]
      dsimp only
      have := fixup_mid_pos hOH1 hfix.1
      omega
    · rw [if_neg hfix]
      dsimp only
      omega
  have hM_mid : M ≤ midCountN IH KH DH SH := by
    rw [hMdef, hchar]
    by_cases hfix : withPadCountN IH OH KH DH PL SH - midCountN IH KH DH SH = 0 ∧ 0 < PL
    · rw [if_pos hfix]
      dsimp only
      omega
    · rw [if_neg hfix]
  have hLb : L < 2 ^ 31 := by omega
  have hMb : M < 2 ^ 31 := by omega
  have hphb : ph < 2 ^ 30 := by omega
  have hphSH : ph * SH < 2 ^ 58 := by
    calc ph * SH < 2 ^ 30 * 2 ^ 28 := Nat.mul_lt_mul'' hphb hSHb
    _ = 2 ^ 58 := by norm_num
  have hKHDH : KH * DH < 2 ^ 56 := by
    calc KH * DH < 2 ^ 28 * 2 ^ 28 := Nat.mul_lt_mul'' hKHb hDHb
    _ = 2 ^ 56 := by norm_num
  have hphSHW : ph * SH < W64 := by unfold W64; omega
  by_cases hcond : M ≤ sub64 ph L
  · -- pad-region row: the simulated walk runs and is self-correcting
    have hck : computeEffectiveKernel SH PL KH DH IH L M ph =
        slowKernelWalk SH PL KH DH IH ph := by
      unfold computeEffectiveKernel
      rw [if_pos hcond]
    rw [hck]
    have hlow : (IH : Int) - (W64 : Nat) < rowStart ph SH PL := by
      unfold rowStart W64
      omega
    have hcastKD : (KH : Int) * (DH : Int) = ((KH * DH : Nat) : Int) := by push_cast; ring
    have hup : rowStart ph SH PL + (KH : Int) * (DH : Int) < (W64 : Nat) := by
      rw [hcastKD]
      unfold rowStart W64
      omega
    have hchar2 := effKernelLoop_char DH IH hDH1 KH (rowStart ph SH PL) KH 0 hlow hup
    unfold slowKernelWalk
    rw [mul64_eq_of_lt hphSHW, sub64_enc]
    have hrs : enc (((ph * SH : Nat) : Int) - (PL : Int)) = enc (rowStart ph SH PL) := rfl
    rw [hrs, hchar2]
    by_cases hV : negCnt (rowStart ph SH PL) DH KH +
        topCnt (rowStart ph SH PL) DH IH KH < KH
    · rw [if_pos hV]
      constructor
      · intro kh hkh
        dsimp only at hkh ⊢
        have hA0 := negCnt_row_nonneg (rowStart ph SH PL) DH KH hDH1 (by omega)
        have hAI := valid_row_lt (rowStart ph SH PL) DH IH KH kh hDH1 (by omega)
        have hcastk : ((negCnt (rowStart ph SH PL) DH KH + kh : Nat) : Int) * (DH : Int) =
            (negCnt (rowStart ph SH PL) DH KH : Int) * (DH : Int) + ((kh * DH : Nat) : Int) := by
          push_cast
          ring
        rw [hcastk] at hAI
        omega
      · dsimp only
        rw [leadTrimCount, if_pos hV]
        omega
    · rw [if_neg hV]
      constructor
      · intro kh hkh
        dsimp only at hkh
        exact absurd hkh (by omega)
      · dsimp only
        rw [leadTrimCount, if_neg hV]
        omega
  · -- interior row: the fast path must already be fully valid
    have hLW : L < W64 := by unfold W64; omega
    have hMW : M < W64 := by unfold W64; omega
    have hphW : ph < W64 := by unfold W64; omega
    have hcond2 := hcond
    rw [sub64_cases ph L hphW hLW] at hcond2
    have hrange : L ≤ ph ∧ ph - L < M := by
      by_cases hLle : L ≤ ph
      · rw [if_pos hLle] at hcond2
        exact ⟨hLle, by omega⟩
      · rw [if_neg hLle] at hcond2
        exfalso
        unfold W64 at hcond2
        omega
    have hM1 : 1 ≤ M := by omega
    have hPLle : PL ≤ SH * L := by
      rcases hamend with h | h
      · omega
      · exact h
    have hSpanIH : spanN KH DH ≤ IH := by
      by_contra hs
      have h0 : midCountN IH KH DH SH = 0 := by
        unfold midCountN
        rw [if_neg hs]
      omega
    have hwp_form : withPadCountN IH OH KH DH PL SH = (IH + PL - spanN KH DH) / SH + 1 := by
      unfold withPadCountN
      rw [if_pos (le_trans hSpanIH (Nat.le_add_right IH PL))]
    have hph_wp : ph < withPadCountN IH OH KH DH PL SH := by omega
    have hphSH_le : ph * SH ≤ IH + PL - spanN KH DH := by
      have h1 : ph ≤ (IH + PL - spanN KH DH) / SH := by omega
      exact (Nat.le_div_iff_mul_le (by omega)).mp h1
    have ht0 : PL ≤ ph * SH := by
      have h1 : SH * L ≤ SH * ph := Nat.mul_le_mul_left SH hrange.1
      have h2 : SH * ph = ph * SH := Nat.mul_comm SH ph
      omega
    have hck : computeEffectiveKernel SH PL KH DH IH L M ph =
        (sub64 (mul64 ph SH) PL, KH, 0) := by
      unfold computeEffectiveKernel
      rw [if_neg hcond]
    rw [hck, mul64_eq_of_lt hphSHW, sub64_eq_of_le ht0 hphSHW]
    have hvalid : ph * SH - PL + (KH - 1) * DH < IH := by
      have hco : DH * (KH - 1) = (KH - 1) * DH := Nat.mul_comm DH (KH - 1)
      unfold spanN at hSpanIH hphSH_le
      omega
    constructor
    · intro kh hkh
      dsimp only at hkh ⊢
      have h1 : kh * DH ≤ (KH - 1) * DH := Nat.mul_le_mul_right DH (by omega)
      omega
    · dsimp only
      have hneg0 : negCnt (rowStart ph SH PL) DH KH = 0 := by
        apply natCount_eq_zero
        intro k _
        rw [decide_eq_false_iff_not]
        have h1 : (0 : Int) ≤ (k : Int) * (DH : Int) :=
          mul_nonneg (Int.natCast_nonneg k) (Int.natCast_nonneg DH)
        unfold rowStart
        omega
      have htop0 : topCnt (rowStart ph SH PL) DH IH KH = 0 := by
        apply natCount_eq_zero
        intro k hk
        rw [decide_eq_false_iff_not]
        have h1 : (k : Int) * (DH : Int) ≤ ((KH - 1 : Nat) : Int) * (DH : Int) := by
          have hkk : (k : Int) ≤ ((KH - 1 : Nat) : Int) := by omega
          exact mul_le_mul_of_nonneg_right hkk (Int.natCast_nonneg DH)
        have h2 : ((KH - 1 : Nat) : Int) * (DH : Int) = (((KH - 1) * DH : Nat) : Int) := by
          push_cast
          ring
        rw [h2] at h1
        unfold rowStart
        omega
      rw [leadTrimCount, hneg0, htop0, if_pos (by omega)]

/-- Claim C1 is false as stated: with `IH = 9`, `KH = 7`, `DH = 1`,
`SH = 2`, `PL = PR = 3` and consistent output height `OH = 5`, the
preprocessor classifies output row `ph = 1` as interior
(`Lpad = 1 ≤ 1 < Lpad + Mid = 3`), yet that row's first tap is row
`1·2 - 3 = -1`: `ComputeEffectiveKernel` takes the fast path and returns
the wrapped row index `2^64 - 1` with the full kernel height, so the
microkernel would read out of bounds. -/
theorem c1_counterexample :
    spanN 7 1 ≤ 9 + 3 + 3 ∧
    5 = (9 + 3 + 3 - spanN 7 1) / 2 + 1 ∧
    1 < 5 ∧
    prepareNchwcWorkBlockDim 9 5 7 1 3 2 = (1, 2, 2) ∧
    ¬ (∀ kh, kh < (computeEffectiveKernel 2 3 7 1 9
        (prepareNchwcWorkBlockDim 9 5 7 1 3 2).1
        (prepareNchwcWorkBlockDim 9 5 7 1 3 2).2.1 1).2.1 →
      (computeEffectiveKernel 2 3 7 1 9
        (prepareNchwcWorkBlockDim 9 5 7 1 3 2).1
        (prepareNchwcWorkBlockDim 9 5 7 1 3 2).2.1 1).1 + kh * 1 < 9) := by
  refine ⟨by decide, by decide, by decide, by decide, fun h => ?_⟩
  exact absurd (h 0 (by decide)) (by decide)

theorem c1_witness :
    spanN 3 1 ≤ 4 + 1 + 1 ∧
    ((∀ kh, kh < (computeEffectiveKernel 1 1 3 1 4
        (prepareNchwcWorkBlockDim 4 4 3 1 1 1).1
        (prepareNchwcWorkBlockDim 4 4 3 1 1 1).2.1 0).2.1 →
      (computeEffectiveKernel 1 1 3 1 4
        (prepareNchwcWorkBlockDim 4 4 3 1 1 1).1
        (prepareNchwcWorkBlockDim 4 4 3 1 1 1).2.1 0).1 + kh * 1 < 4) ∧
    (computeEffectiveKernel 1 1 3 1 4
        (prepareNchwcWorkBlockDim 4 4 3 1 1 1).1
        (prepareNchwcWorkBlockDim 4 4 3 1 1 1).2.1 0).2.2 =
      leadTrimCount (rowStart 0 1 1) 1 4 3) :=
  ⟨by decide,
   c1_effective_kernel 4 4 3 1 1 1 1 0 (by decide) (by decide) (by decide) (by decide)
     (by decide) (by decide) (by decide) (by decide) (by decide) (by decide) (by decide)
     (by decide) (by decide) (Or.inr (by decide))⟩

/-! ### The pooling executor's per-row kernel invocation
(`MLAS_NCHWC_POOL_ALGORITHM::Execute`, snchwc.cpp lines 1086-1125)

The pooling kinds are modelled from the spec's pooling entry
(`{Max, AvgIncludePad, AvgExcludePad}`); the executor passes the same
argument list to whichever kernel the kind selects. -/

/-- Modelled from the spec: the `MLAS_POOLING_KIND` enumeration lives in the
(absent) `mlasi.h` header; the spec's pooling entry lists the three kinds. -/
inductive MLAS_POOLING_KIND where
  | MaximumPooling
  | AverageExcludePad
  | AverageIncludePad
deriving DecidableEq

/-- The effective-kernel computation inlined in the pooling executor: it is
the same walk as `ComputeEffectiveKernel` except that no filter pointer is
advanced; it returns `(ih, EffectiveKernelHeight)`. -/
def poolEffectiveKernel (SH PL KH DH IH Lpad Mid ph : Nat) : Nat × Nat :=
  ((computeEffectiveKernel SH PL KH DH IH Lpad Mid ph).1,
   (computeEffectiveKernel SH PL KH DH IH Lpad Mid ph).2.1)

/-- The shape arguments of one pooling-kernel call: the `KernelSize`
divisor argument (always `KernelHeight * KernelWidth`, captured by
`MLAS_NCHWC_NN_ALGORITHM` from the work block), the trimmed
`EffectiveKernelHeight`, and the kernel width. -/
structure PoolRowCall where
  KernelSizeArg : Nat
  EffectiveKernelHeight : Nat
  KernelWidthArg : Nat
deriving DecidableEq

/-- The per-row argument assembly of the pooling executor: `PoolingKind`
only selects which kernel is invoked; the arguments do not depend on it. -/
def poolRowCall (_ : MLAS_POOLING_KIND) (SH PL KH KW DH IH Lpad Mid ph : Nat) :
    PoolRowCall :=
  { KernelSizeArg := KH * KW,
    EffectiveKernelHeight := (poolEffectiveKernel SH PL KH DH IH Lpad Mid ph).2,
    KernelWidthArg := KW }

/-- Claim C10: for every pooling kind and every output row — including
edge rows where the effective kernel height is trimmed — the pool executor
passes the full untrimmed `KH * KW` as the kernel-size divisor argument;
the divisor never reflects the trimmed tap count.  (The second conjunct
exhibits a trimmed edge row, `IH = 4`, `KH = 3`, `SH = 1`, `PL = 1`,
`ph = 0`, whose effective height is `2 < KH` while the divisor argument is
still `3 * 3`.) -/
theorem c10_pool_divisor :
    (∀ (kind : MLAS_POOLING_KIND) (SH PL KH KW DH IH Lpad Mid ph : Nat),
      (poolRowCall kind SH PL KH KW DH IH Lpad Mid ph).KernelSizeArg = KH * KW) ∧
    (poolRowCall .AverageExcludePad 1 1 3 3 1 4 1 2 0).EffectiveKernelHeight = 2 ∧
    (poolRowCall .AverageExcludePad 1 1 3 3 1 4 1 2 0).EffectiveKernelHeight < 3 ∧
    (poolRowCall .AverageExcludePad 1 1 3 3 1 4 1 2 0).KernelSizeArg = 3 * 3 :=
  ⟨fun _ _ _ _ _ _ _ _ _ _ => rfl, by decide, by decide, by decide⟩
